import Mathlib

/-!
# Verification of the nessie transition-index core

Shallow embedding of the repository's core data structures and operations:

* `Counter` — the order-maintaining ranked frequency counter (src/counter.rs).
  The Rust struct keeps a dense `items : Vec<(T, usize)>` plus a cached
  position map `indicies : HashMap<T, usize>`; the cached map always holds the
  current position of each key in `items`, so the embedding models the lookup
  by `List.findIdx` over `items` and drops the redundant cache.
* `Chain` — the bounded transition index (src/chain.rs).  Hash maps are
  modelled as insertion-ordered association lists (hashing only affects bucket
  iteration order, never the per-key contents); `Unigram` values are modelled
  by their textual content (src/unigram.rs stores the exact bytes of the
  source token for every token shorter than 128 bytes).
* A byte-level model of `Unigram` (src/unigram.rs) for the representation
  claims: inline storage for ≤ 15 bytes, region("pool")-boxed storage
  otherwise, with the 7-bit length marker.
* A fallible allocation model for the error-propagation claims.
-/

set_option linter.unusedSectionVars false

namespace Nessie

/-! ## Small list-indexing kit

All invariance proofs below work with positional indexing.  `nth l i` is the
entry at position `i` (a default entry out of bounds), mirroring the Rust
`items[i]` accesses which are always in bounds when executed. -/

variable {T : Type} [DecidableEq T] [Inhabited T]

/-- Default entry used for out-of-bounds reads (never reached by the code). -/
def dflt [Inhabited T] : T × Nat := (default, 0)

/-- Positional read of an `items` vector. -/
def nth (l : List (T × Nat)) (i : Nat) : T × Nat := l.getD i dflt

theorem nth_nil (i : Nat) : nth ([] : List (T × Nat)) i = dflt := by
  cases i <;> rfl

theorem nth_cons_zero (a : T × Nat) (l : List (T × Nat)) : nth (a :: l) 0 = a := rfl

theorem nth_cons_succ (a : T × Nat) (l : List (T × Nat)) (i : Nat) :
    nth (a :: l) (i + 1) = nth l i := rfl

theorem nth_set_self (l : List (T × Nat)) (i : Nat) (a : T × Nat) (h : i < l.length) :
    nth (l.set i a) i = a := by
  induction l generalizing i with
  | nil => simp at h
  | cons b t ih =>
    cases i with
    | zero => rfl
    | succ j =>
      simp only [List.set, nth_cons_succ]
      exact ih j (by simpa using h)

theorem nth_set_ne (l : List (T × Nat)) (i j : Nat) (a : T × Nat) (h : i ≠ j) :
    nth (l.set i a) j = nth l j := by
  induction l generalizing i j with
  | nil => simp [List.set]
  | cons b t ih =>
    cases i with
    | zero =>
      cases j with
      | zero => exact absurd rfl h
      | succ m => rfl
    | succ n =>
      cases j with
      | zero => rfl
      | succ m =>
        simp only [List.set, nth_cons_succ]
        exact ih n m (by omega)

theorem nth_append_sing (l : List (T × Nat)) (x : T × Nat) (i : Nat) (h : i ≠ l.length) :
    nth (l ++ [x]) i = nth l i := by
  induction l generalizing i with
  | nil =>
    cases i with
    | zero => simp at h
    | succ j => simp [nth, List.getD]
  | cons b t ih =>
    cases i with
    | zero => rfl
    | succ j =>
      simp only [List.cons_append, nth_cons_succ]
      exact ih j (by simpa using h)

theorem nth_append_sing_len (l : List (T × Nat)) (x : T × Nat) :
    nth (l ++ [x]) l.length = x := by
  induction l with
  | nil => rfl
  | cons b t ih => simpa [nth_cons_succ] using ih

theorem nth_mem (l : List (T × Nat)) (i : Nat) (h : i < l.length) : nth l i ∈ l := by
  induction l generalizing i with
  | nil => simp at h
  | cons b t ih =>
    cases i with
    | zero => exact List.mem_cons_self _ _
    | succ j => exact List.mem_cons_of_mem _ (ih j (by simpa using h))

theorem mem_nth (l : List (T × Nat)) (x : T × Nat) (h : x ∈ l) :
    ∃ i, i < l.length ∧ nth l i = x := by
  induction l with
  | nil => simp at h
  | cons b t ih =>
    rcases List.mem_cons.mp h with h | h
    · exact ⟨0, by simp, by simp [nth_cons_zero, h]⟩
    · obtain ⟨i, hi, hx⟩ := ih h
      exact ⟨i + 1, by simp; omega, by simpa [nth_cons_succ] using hx⟩

/-- Sum of the stored counts. -/
def countSum (l : List (T × Nat)) : Nat := (l.map (fun p => p.2)).sum

theorem countSum_nil : countSum ([] : List (T × Nat)) = 0 := rfl

theorem countSum_cons (a : T × Nat) (l : List (T × Nat)) :
    countSum (a :: l) = a.2 + countSum l := by
  simp [countSum]

theorem countSum_append_sing (l : List (T × Nat)) (x : T × Nat) :
    countSum (l ++ [x]) = countSum l + x.2 := by
  simp [countSum]

theorem countSum_set (l : List (T × Nat)) (i : Nat) (a : T × Nat) (h : i < l.length) :
    countSum (l.set i a) + (nth l i).2 = countSum l + a.2 := by
  induction l generalizing i with
  | nil => simp at h
  | cons b t ih =>
    cases i with
    | zero => simp [countSum_cons, nth_cons_zero]; omega
    | succ j =>
      simp only [List.set, countSum_cons, nth_cons_succ]
      have := ih j (by simpa using h)
      omega

theorem countSum_dropLast (l : List (T × Nat)) (h : l ≠ []) :
    countSum l = countSum l.dropLast + (nth l (l.length - 1)).2 := by
  induction l with
  | nil => exact absurd rfl h
  | cons b t ih =>
    cases t with
    | nil => simp [countSum, nth_cons_zero]
    | cons c u =>
      have h2 := ih (by simp)
      simp only [List.dropLast_cons₂, countSum_cons, List.length_cons, Nat.add_sub_cancel,
        nth_cons_succ] at h2 ⊢
      omega

/-! ## The ranked frequency counter (src/counter.rs)

`Counter<T>` keeps `items: Vec<(T, usize)>` sorted by count descending, a
cached `indicies: HashMap<T, usize>` from key to its position in `items`
(derived here as `keyIdx`, the position of the key in `items`), and a running
`total`. -/

/-- `Counter::swap(i1, i2)` on the `items` vector (the Rust method returns
early when `i1 == i2`, and otherwise swaps the two slots and refreshes the two
cached index entries). -/
def listSwap (l : List (T × Nat)) (i j : Nat) : List (T × Nat) :=
  if i = j then l else (l.set i (nth l j)).set j (nth l i)

theorem length_listSwap (l : List (T × Nat)) (i j : Nat) :
    (listSwap l i j).length = l.length := by
  unfold listSwap
  split <;> simp

theorem nth_listSwap (l : List (T × Nat)) (i j p : Nat)
    (hi : i < l.length) (hj : j < l.length) :
    nth (listSwap l i j) p =
      if p = i then nth l j else if p = j then nth l i else nth l p := by
  unfold listSwap
  by_cases hij : i = j
  · rw [hij, if_pos rfl]
    by_cases hp : p = j <;> simp [hp]
  · rw [if_neg hij]
    by_cases hpj : p = j
    · subst hpj
      rw [nth_set_self _ _ _ (by simpa using hj), if_neg (by omega), if_pos rfl]
    · rw [nth_set_ne _ _ _ _ (by omega)]
      by_cases hpi : p = i
      · subst hpi
        rw [nth_set_self _ _ _ hi, if_pos rfl]
      · rw [nth_set_ne _ _ _ _ (by omega), if_neg hpi, if_neg hpj]

theorem nth_listSwap_idx (l : List (T × Nat)) (i j p : Nat)
    (hi : i < l.length) (hj : j < l.length) :
    nth (listSwap l i j) p = nth l (if p = i then j else if p = j then i else p) := by
  rw [nth_listSwap _ _ _ _ hi hj]
  by_cases h1 : p = i
  · simp only [if_pos h1]
  · by_cases h2 : p = j
    · simp only [if_neg h1, if_pos h2]
    · simp only [if_neg h1, if_neg h2]

theorem countSum_listSwap (l : List (T × Nat)) (i j : Nat)
    (hi : i < l.length) (hj : j < l.length) :
    countSum (listSwap l i j) = countSum l := by
  unfold listSwap
  by_cases hij : i = j
  · simp [hij]
  · rw [if_neg hij]
    have h1 := countSum_set l i (nth l j) hi
    have h2 := countSum_set (l.set i (nth l j)) j (nth l i) (by simpa using hj)
    rw [nth_set_ne _ _ _ _ hij] at h2
    omega

/-- `items` is sorted by count descending. -/
def sortedDesc (l : List (T × Nat)) : Prop :=
  ∀ p q, p < q → q < l.length → (nth l q).2 ≤ (nth l p).2

/-- No key occurs at two positions of `items`. -/
def nodupKeys (l : List (T × Nat)) : Prop :=
  ∀ p q, p < q → q < l.length → (nth l p).1 ≠ (nth l q).1

/-- Every stored count is positive. -/
def posCounts (l : List (T × Nat)) : Prop :=
  ∀ p, p < l.length → 0 < (nth l p).2

theorem nodupKeys_ne (l : List (T × Nat)) (h : nodupKeys l) (a b : Nat)
    (hab : a ≠ b) (ha : a < l.length) (hb : b < l.length) :
    (nth l a).1 ≠ (nth l b).1 := by
  rcases Nat.lt_or_ge a b with hlt | hge
  · exact h a b hlt hb
  · exact (h b a (by omega) ha).symm

theorem nodupKeys_listSwap (l : List (T × Nat)) (i j : Nat)
    (hi : i < l.length) (hj : j < l.length) (h : nodupKeys l) :
    nodupKeys (listSwap l i j) := by
  intro p q hpq hq
  rw [length_listSwap] at hq
  have hp : p < l.length := by omega
  rw [nth_listSwap_idx _ _ _ _ hi hj, nth_listSwap_idx _ _ _ _ hi hj]
  apply nodupKeys_ne l h
  · split_ifs <;> omega
  · split_ifs <;> omega
  · split_ifs <;> omega

theorem posCounts_listSwap (l : List (T × Nat)) (i j : Nat)
    (hi : i < l.length) (hj : j < l.length) (h : posCounts l) :
    posCounts (listSwap l i j) := by
  intro p hp
  rw [length_listSwap] at hp
  rw [nth_listSwap_idx _ _ _ _ hi hj]
  apply h
  split_ifs <;> omega

/-- Position of key `k` in `items` (the content of the Rust `indicies` cache:
`l.length` exactly when the key is absent). -/
def keyIdx (l : List (T × Nat)) (k : T) : Nat :=
  l.findIdx (fun p => decide (p.1 = k))

theorem keyIdx_le (l : List (T × Nat)) (k : T) : keyIdx l k ≤ l.length := by
  induction l with
  | nil => simp [keyIdx]
  | cons a t ih =>
    rw [keyIdx, List.findIdx_cons]
    cases h : decide (a.1 = k)
    · have h2 : keyIdx t k ≤ t.length := ih
      rw [keyIdx] at h2
      simp only [cond_false, List.length_cons]
      omega
    · simp

theorem keyIdx_lt_of_mem (l : List (T × Nat)) (k : T) (x : T × Nat)
    (hx : x ∈ l) (hk : x.1 = k) : keyIdx l k < l.length := by
  induction l with
  | nil => simp at hx
  | cons a t ih =>
    rw [keyIdx, List.findIdx_cons]
    cases h : decide (a.1 = k)
    · rcases List.mem_cons.mp hx with rfl | hmem
      · rw [hk] at h
        simp at h
      · have h2 := ih hmem
        rw [keyIdx] at h2
        simp only [cond_false, List.length_cons]
        omega
    · simp

theorem nth_keyIdx (l : List (T × Nat)) (k : T) (h : keyIdx l k < l.length) :
    (nth l (keyIdx l k)).1 = k := by
  induction l with
  | nil => simp at h
  | cons a t ih =>
    simp only [keyIdx, List.findIdx_cons] at *
    cases hd : decide (a.1 = k)
    · simp only [hd, cond_false, List.length_cons] at h ⊢
      rw [nth_cons_succ]
      exact ih (by omega)
    · simp only [hd, cond_true, nth_cons_zero]
      exact of_decide_eq_true hd

/-- The ranked frequency counter (`Counter` in src/counter.rs); the cached
`indicies` map is represented by `keyIdx`. -/
structure Counter (T : Type) where
  items : List (T × Nat)
  total : Nat
deriving DecidableEq, Repr

/-- `Counter::new()`. -/
def Counter.new : Counter T := ⟨[], 0⟩

/-- `Counter::total_count()`. -/
def Counter.totalCount (c : Counter T) : Nat := c.total

/-- `Counter::num_items()`. -/
def Counter.numItems (c : Counter T) : Nat := c.items.length

/-- `Counter::most_frequent(n)` (1-indexed). -/
def Counter.mostFrequent (c : Counter T) (n : Nat) : Option (T × Nat) :=
  c.items.get? (n - 1)

/-- The left-moving rebalancing loop of `Counter::add`
(`for i2 in (0..i1).rev() { ... }`); the argument is one past the position
inspected next, so the loop body at `i2` is the `i2 + 1` case. -/
def addScan (items : List (T × Nat)) (i1 count : Nat) : Nat → List (T × Nat)
  | 0 => items
  | i2 + 1 =>
    if (nth items i2).2 < count then
      if 0 < i2 then addScan items i1 count i2
      else listSwap items i1 0
    else listSwap items i1 (i2 + 1)

/-- `Counter::add(key)`. -/
def Counter.add (c : Counter T) (k : T) : Counter T :=
  let i1 := keyIdx c.items k
  if i1 = c.items.length then
    ⟨c.items ++ [(k, 1)], c.total + 1⟩
  else
    let count := (nth c.items i1).2 + 1
    let items1 := c.items.set i1 ((nth c.items i1).1, count)
    ⟨addScan items1 i1 count i1, c.total + 1⟩

/-- The right-moving rebalancing loop of `Counter::remove`
(`for i2 in (i1 + 1)..self.items.len() { ... }`). -/
def removeScan (items : List (T × Nat)) (i1 count i2 : Nat) : List (T × Nat) :=
  if h : i2 < items.length then
    if count < (nth items i2).2 then
      if i2 < items.length - 1 then removeScan items i1 count (i2 + 1)
      else listSwap items i1 i2
    else listSwap items i1 (i2 - 1)
  else items
termination_by items.length - i2

/-- `Counter::remove(key)` (callers only remove keys that are present). -/
def Counter.remove (c : Counter T) (k : T) : Counter T :=
  let i1 := keyIdx c.items k
  let count := (nth c.items i1).2 - 1
  let items1 := c.items.set i1 ((nth c.items i1).1, count)
  if count = 0 then
    ⟨(items1.set i1 (nth items1 (items1.length - 1))).dropLast, c.total - 1⟩
  else
    ⟨removeScan items1 i1 count (i1 + 1), c.total - 1⟩

/-! ### Characterization of the `add` rebalancing scan -/

/-- Destination slot of the `Counter::add` rebalancing scan, per the
documented contract: scanning leftward from `j - 1`, stop at the first
position whose count is ≥ the incremented count and move to the slot
immediately to its right; slot 0 when the scan is exhausted. -/
def scanDest (items : List (T × Nat)) (count : Nat) : Nat → Nat
  | 0 => 0
  | p + 1 => if count ≤ (nth items p).2 then p + 1 else scanDest items count p

theorem scanDest_le (items : List (T × Nat)) (count j : Nat) :
    scanDest items count j ≤ j := by
  induction j with
  | zero => simp [scanDest]
  | succ p ih =>
    rw [scanDest]
    split
    · omega
    · omega

theorem scanDest_stop (items : List (T × Nat)) (count j : Nat)
    (h : 0 < scanDest items count j) :
    count ≤ (nth items (scanDest items count j - 1)).2 := by
  induction j with
  | zero => simp [scanDest] at h
  | succ p ih =>
    by_cases hc : count ≤ (nth items p).2
    · rw [scanDest, if_pos hc]
      simpa using hc
    · rw [scanDest, if_neg hc] at h ⊢
      exact ih h

theorem scanDest_scanned (items : List (T × Nat)) (count j : Nat) :
    ∀ p, scanDest items count j ≤ p → p < j → (nth items p).2 < count := by
  induction j with
  | zero =>
    intro p h1 h2
    omega
  | succ q ih =>
    intro p h1 h2
    by_cases hc : count ≤ (nth items q).2
    · rw [scanDest, if_pos hc] at h1
      omega
    · rw [scanDest, if_neg hc] at h1
      rcases Nat.lt_or_ge p q with hlt | hge
      · exact ih p h1 hlt
      · have hpq : p = q := by omega
        subst hpq
        omega

theorem addScan_eq (items : List (T × Nat)) (i1 count j : Nat) (hj : 0 < j) :
    addScan items i1 count j = listSwap items i1 (scanDest items count j) := by
  induction j with
  | zero => omega
  | succ p ih =>
    rw [addScan, scanDest]
    by_cases hc : (nth items p).2 < count
    · rw [if_pos hc, if_neg (by omega : ¬ count ≤ (nth items p).2)]
      by_cases hp : 0 < p
      · rw [if_pos hp, ih hp]
      · rw [if_neg hp]
        have hp0 : p = 0 := by omega
        subst hp0
        rw [scanDest]
    · rw [if_neg hc, if_pos (by omega : count ≤ (nth items p).2)]

/-- Unfolding equation for `Counter::add`. -/
theorem add_def (c : Counter T) (k : T) :
    c.add k =
      if keyIdx c.items k = c.items.length then
        ⟨c.items ++ [(k, 1)], c.total + 1⟩
      else
        ⟨addScan
            (c.items.set (keyIdx c.items k)
              ((nth c.items (keyIdx c.items k)).1, (nth c.items (keyIdx c.items k)).2 + 1))
            (keyIdx c.items k) ((nth c.items (keyIdx c.items k)).2 + 1) (keyIdx c.items k),
          c.total + 1⟩ := rfl

/-- On a key already present, `Counter::add` increments the count and performs
the single swap prescribed by `scanDest`. -/
theorem add_items_eq (c : Counter T) (k : T) (h : keyIdx c.items k < c.items.length) :
    (c.add k).items =
      listSwap
        (c.items.set (keyIdx c.items k)
          ((nth c.items (keyIdx c.items k)).1, (nth c.items (keyIdx c.items k)).2 + 1))
        (keyIdx c.items k)
        (scanDest
          (c.items.set (keyIdx c.items k)
            ((nth c.items (keyIdx c.items k)).1, (nth c.items (keyIdx c.items k)).2 + 1))
          ((nth c.items (keyIdx c.items k)).2 + 1) (keyIdx c.items k)) := by
  rw [add_def, if_neg (by omega)]
  by_cases h0 : 0 < keyIdx c.items k
  · exact addScan_eq _ _ _ _ h0
  · have h1 : keyIdx c.items k = 0 := by omega
    rw [h1]
    rw [addScan, scanDest, listSwap, if_pos rfl]

/-! ### Preservation of the counter invariants -/

/-- The data-structure invariant of the ranked counter. -/
def Inv (c : Counter T) : Prop :=
  sortedDesc c.items ∧ countSum c.items = c.total ∧ posCounts c.items ∧ nodupKeys c.items

theorem nodupKeys_set_same (l : List (T × Nat)) (i : Nat) (a : T × Nat)
    (hi : i < l.length) (hkey : a.1 = (nth l i).1) (h : nodupKeys l) :
    nodupKeys (l.set i a) := by
  intro p q hpq hq
  rw [List.length_set] at hq
  by_cases hp : p = i <;> by_cases hq2 : q = i
  · omega
  · rw [hp, nth_set_self _ _ _ hi, nth_set_ne _ _ _ _ (by omega), hkey]
    exact nodupKeys_ne l h i q (by omega) hi (by omega)
  · rw [hq2, nth_set_self _ _ _ hi, nth_set_ne _ _ _ _ (by omega), hkey]
    exact nodupKeys_ne l h p i (by omega) (by omega) hi
  · rw [nth_set_ne _ _ _ _ (by omega), nth_set_ne _ _ _ _ (by omega)]
    exact h p q hpq hq

/-- All four invariants after the increment-and-swap path of `Counter::add`. -/
theorem add_core (l : List (T × Nat)) (i1 : Nat) (hlt : i1 < l.length)
    (hs : sortedDesc l) (hpos : posCounts l) (hnd : nodupKeys l) :
    sortedDesc (listSwap (l.set i1 ((nth l i1).1, (nth l i1).2 + 1)) i1
      (scanDest (l.set i1 ((nth l i1).1, (nth l i1).2 + 1)) ((nth l i1).2 + 1) i1)) ∧
    countSum (listSwap (l.set i1 ((nth l i1).1, (nth l i1).2 + 1)) i1
      (scanDest (l.set i1 ((nth l i1).1, (nth l i1).2 + 1)) ((nth l i1).2 + 1) i1)) =
        countSum l + 1 ∧
    posCounts (listSwap (l.set i1 ((nth l i1).1, (nth l i1).2 + 1)) i1
      (scanDest (l.set i1 ((nth l i1).1, (nth l i1).2 + 1)) ((nth l i1).2 + 1) i1)) ∧
    nodupKeys (listSwap (l.set i1 ((nth l i1).1, (nth l i1).2 + 1)) i1
      (scanDest (l.set i1 ((nth l i1).1, (nth l i1).2 + 1)) ((nth l i1).2 + 1) i1)) := by
  set c0 := (nth l i1).2 with hc0
  set items1 := l.set i1 ((nth l i1).1, c0 + 1) with hitems1
  set d := scanDest items1 (c0 + 1) i1 with hddef
  have len1 : items1.length = l.length := by rw [hitems1, List.length_set]
  have hd_le : d ≤ i1 := scanDest_le items1 (c0 + 1) i1
  have hd_lt : d < l.length := by omega
  have hi1m : i1 < items1.length := by omega
  have hdm : d < items1.length := by omega
  have hn_i1 : nth items1 i1 = ((nth l i1).1, c0 + 1) := nth_set_self l i1 _ hlt
  have hn_ne : ∀ p, p ≠ i1 → nth items1 p = nth l p := fun p hp =>
    nth_set_ne l i1 p _ (fun he => hp he.symm)
  have hmid : ∀ p, d ≤ p → p < i1 → (nth l p).2 = c0 := by
    intro p h1 h2
    have hsm := scanDest_scanned items1 (c0 + 1) i1 p h1 h2
    rw [hn_ne p (by omega)] at hsm
    have hge := hs p i1 h2 hlt
    omega
  have hleftAll : ∀ p, p < d → c0 + 1 ≤ (nth l p).2 := by
    intro p hp
    have h0d : 0 < d := by omega
    have hb := scanDest_stop items1 (c0 + 1) i1 h0d
    rw [hn_ne (d - 1) (by omega)] at hb
    rcases Nat.lt_or_ge p (d - 1) with hlt2 | hge2
    · have := hs p (d - 1) hlt2 (by omega)
      omega
    · have hpe : p = d - 1 := by omega
      rw [hpe]
      exact hb
  have hright : ∀ q, i1 < q → q < l.length → (nth l q).2 ≤ c0 := fun q h1 h2 => hs i1 q h1 h2
  -- value of the result at each slot
  have hSnth : ∀ x, x < l.length →
      nth (listSwap items1 i1 d) x = nth items1 (if x = i1 then d else if x = d then i1 else x) :=
    fun x _ => nth_listSwap_idx items1 i1 d x hi1m hdm
  have hv1 : ∀ x, x < d → nth (listSwap items1 i1 d) x = nth l x := by
    intro x hx
    rw [hSnth x (by omega), if_neg (by omega), if_neg (by omega), hn_ne x (by omega)]
  have hv2 : ∀ x, x = d → (nth (listSwap items1 i1 d) x).2 = c0 + 1 := by
    intro x hx
    rw [hSnth x (by omega)]
    by_cases hdi : x = i1
    · rw [if_pos hdi]
      by_cases hdi2 : d = i1
      · rw [hdi2, hn_i1]
      · rw [hn_ne d hdi2]
        omega
    · rw [if_neg hdi, if_pos hx, hn_i1]
  have hv3 : ∀ x, d < x → x < i1 → (nth (listSwap items1 i1 d) x).2 = c0 := by
    intro x h1 h2
    rw [hSnth x (by omega), if_neg (by omega), if_neg (by omega), hn_ne x (by omega)]
    exact hmid x (by omega) h2
  have hv4 : ∀ x, x = i1 → d < i1 → (nth (listSwap items1 i1 d) x).2 = c0 := by
    intro x hx hdi
    rw [hSnth x (by omega), if_pos hx, hn_ne d (by omega)]
    exact hmid d (Nat.le_refl d) hdi
  have hv5 : ∀ x, i1 < x → x < l.length → nth (listSwap items1 i1 d) x = nth l x := by
    intro x h1 h2
    rw [hSnth x h2, if_neg (by omega), if_neg (by omega), hn_ne x (by omega)]
  refine ⟨?_, ?_, ?_, ?_⟩
  · -- sortedness
    intro p q hpq hq
    rw [length_listSwap, len1] at hq
    have hp : p < l.length := by omega
    -- zone of q, then zone of p
    rcases Nat.lt_or_ge q d with hqz | hqz
    · rw [hv1 q hqz, hv1 p (by omega)]
      exact hs p q hpq hq
    rcases Nat.eq_or_lt_of_le hqz with hqd | hqz2
    · -- q = d
      rw [hv2 q hqd.symm, hv1 p (by omega)]
      exact hleftAll p (by omega)
    rcases Nat.lt_or_ge q i1 with hqi | hqi
    · -- d < q < i1
      rw [hv3 q hqz2 hqi]
      rcases Nat.lt_or_ge p d with hpz | hpz
      · rw [hv1 p hpz]
        have := hleftAll p hpz
        omega
      rcases Nat.eq_or_lt_of_le hpz with hpd | hpz2
      · rw [hv2 p hpd.symm]
        omega
      · rw [hv3 p hpz2 (by omega)]
    rcases Nat.eq_or_lt_of_le hqi with hqe | hqi2
    · -- q = i1 (d < i1, else covered by q = d)
      have hdi : d < i1 := by omega
      rw [hv4 q hqe.symm hdi]
      rcases Nat.lt_or_ge p d with hpz | hpz
      · rw [hv1 p hpz]
        have := hleftAll p hpz
        omega
      rcases Nat.eq_or_lt_of_le hpz with hpd | hpz2
      · rw [hv2 p hpd.symm]
        omega
      · rw [hv3 p hpz2 (by omega)]
    · -- i1 < q
      rw [hv5 q hqi2 hq]
      have hqc := hright q hqi2 hq
      rcases Nat.lt_or_ge p d with hpz | hpz
      · rw [hv1 p hpz]
        have := hleftAll p hpz
        omega
      rcases Nat.eq_or_lt_of_le hpz with hpd | hpz2
      · rw [hv2 p hpd.symm]
        omega
      rcases Nat.lt_or_ge p i1 with hpi | hpi
      · rw [hv3 p hpz2 hpi]
        omega
      rcases Nat.eq_or_lt_of_le hpi with hpe | hpi2
      · rcases Nat.eq_or_lt_of_le hd_le with hde | hdlt2
        · rw [hv2 p (by omega)]
          omega
        · rw [hv4 p hpe.symm hdlt2]
          omega
      · rw [hv5 p hpi2 hp]
        exact hs p q hpq hq
  · -- count sum
    have hcs1 := countSum_set l i1 ((nth l i1).1, c0 + 1) hlt
    rw [← hitems1] at hcs1
    have hcs2 := countSum_listSwap items1 i1 d hi1m hdm
    rw [hcs2]
    have hproj : (((nth l i1).1, c0 + 1) : T × Nat).2 = c0 + 1 := rfl
    rw [hproj, ← hc0] at hcs1
    omega
  · -- positive counts
    apply posCounts_listSwap items1 i1 d hi1m hdm
    intro p hp
    rw [len1] at hp
    by_cases hpe : p = i1
    · rw [hpe, hn_i1]
      omega
    · rw [hn_ne p hpe]
      exact hpos p hp
  · -- nodup keys
    apply nodupKeys_listSwap items1 i1 d hi1m hdm
    exact nodupKeys_set_same l i1 _ hlt rfl hnd

/-- `Counter::add` preserves the counter invariant. -/
theorem Inv_add (c : Counter T) (k : T) (h : Inv c) : Inv (c.add k) := by
  obtain ⟨hs, hsum, hpos, hnd⟩ := h
  by_cases hf : keyIdx c.items k = c.items.length
  · -- key unseen: appended at the tail with count 1
    have hitems : (c.add k).items = c.items ++ [(k, 1)] := by rw [add_def, if_pos hf]
    have htot : (c.add k).total = c.total + 1 := by rw [add_def, if_pos hf]
    have hone : ((k, 1) : T × Nat).2 = 1 := rfl
    refine ⟨?_, ?_, ?_, ?_⟩
    · rw [hitems]
      intro p q hpq hq
      have hq2 : q < c.items.length + 1 := by simpa using hq
      by_cases hqe : q = c.items.length
      · rw [hqe, nth_append_sing_len, nth_append_sing _ _ _ (by omega), hone]
        have := hpos p (by omega)
        omega
      · rw [nth_append_sing _ _ _ hqe, nth_append_sing _ _ _ (by omega)]
        exact hs p q hpq (by omega)
    · rw [hitems, htot, countSum_append_sing, hone, hsum]
    · rw [hitems]
      intro p hp
      have hp2 : p < c.items.length + 1 := by simpa using hp
      by_cases hpe : p = c.items.length
      · rw [hpe, nth_append_sing_len, hone]
        omega
      · rw [nth_append_sing _ _ _ hpe]
        exact hpos p (by omega)
    · rw [hitems]
      intro p q hpq hq
      have hq2 : q < c.items.length + 1 := by simpa using hq
      by_cases hqe : q = c.items.length
      · rw [hqe, nth_append_sing_len, nth_append_sing _ _ _ (by omega)]
        intro heq
        have hmemp := nth_mem c.items p (by omega)
        have := keyIdx_lt_of_mem c.items k _ hmemp heq
        omega
      · rw [nth_append_sing _ _ _ hqe, nth_append_sing _ _ _ (by omega)]
        exact hnd p q hpq (by omega)
  · -- key present: increment and rebalance by one swap
    have hlt : keyIdx c.items k < c.items.length := by
      have := keyIdx_le c.items k
      omega
    have hitems := add_items_eq c k hlt
    have htot : (c.add k).total = c.total + 1 := by rw [add_def, if_neg hf]
    obtain ⟨h1, h2, h3, h4⟩ := add_core c.items (keyIdx c.items k) hlt hs hpos hnd
    refine ⟨?_, ?_, ?_, ?_⟩
    · rw [hitems]
      exact h1
    · rw [hitems, htot, h2, hsum]
    · rw [hitems]
      exact h3
    · rw [hitems]
      exact h4

/-! ### Characterization of the `remove` rebalancing scan -/

theorem removeScan_char (items : List (T × Nat)) (i1 count : Nat)
    (hi1 : i1 < items.length) :
    ∀ fuel i2, items.length - i2 ≤ fuel → i1 < i2 →
    (i2 ≤ items.length - 1 ∨ i2 = i1 + 1) →
    (∀ q, i1 < q → q < i2 → count < (nth items q).2) →
    ∃ d, removeScan items i1 count i2 = listSwap items i1 d ∧ i1 ≤ d ∧ d < items.length ∧
      (∀ q, i1 < q → q ≤ d → count < (nth items q).2) ∧
      (d + 1 < items.length → (nth items (d + 1)).2 ≤ count) := by
  intro fuel
  induction fuel with
  | zero =>
    intro i2 hfuel hgt hside hpre
    have hge : items.length ≤ i2 := by omega
    rw [removeScan, dif_neg (by omega)]
    refine ⟨i1, by rw [listSwap, if_pos rfl], Nat.le_refl i1, hi1, ?_, ?_⟩
    · intro q h1 h2
      omega
    · intro hcon
      omega
  | succ fuel ih =>
    intro i2 hfuel hgt hside hpre
    by_cases hin : i2 < items.length
    · rw [removeScan, dif_pos hin]
      by_cases hbig : count < (nth items i2).2
      · rw [if_pos hbig]
        by_cases hend : i2 < items.length - 1
        · rw [if_pos hend]
          apply ih (i2 + 1) (by omega) (by omega) (by omega)
          intro q h1 h2
          rcases Nat.lt_or_ge q i2 with hq | hq
          · exact hpre q h1 hq
          · have hq2 : q = i2 := by omega
            rw [hq2]
            exact hbig
        · rw [if_neg hend]
          refine ⟨i2, rfl, by omega, hin, ?_, ?_⟩
          · intro q h1 h2
            rcases Nat.lt_or_ge q i2 with hq | hq
            · exact hpre q h1 hq
            · have hq2 : q = i2 := by omega
              rw [hq2]
              exact hbig
          · intro hcon
            omega
      · rw [if_neg hbig]
        refine ⟨i2 - 1, rfl, by omega, by omega, ?_, ?_⟩
        · intro q h1 h2
          exact hpre q h1 (by omega)
        · intro hcon
          rw [show i2 - 1 + 1 = i2 from by omega]
          omega
    · rw [removeScan, dif_neg hin]
      refine ⟨i1, by rw [listSwap, if_pos rfl], Nat.le_refl i1, hi1, ?_, ?_⟩
      · intro q h1 h2
        omega
      · intro hcon
        omega

theorem nth_dropLast (l : List (T × Nat)) (p : Nat) (h : p < l.length - 1) :
    nth l.dropLast p = nth l p := by
  induction l generalizing p with
  | nil => simp at h
  | cons b t ih =>
    cases t with
    | nil => simp at h
    | cons c u =>
      cases p with
      | zero => rfl
      | succ q =>
        have h2 := ih q (by simp at h ⊢; omega)
        simp only [List.dropLast_cons₂, nth_cons_succ]
        exact h2

theorem nth_le_countSum (l : List (T × Nat)) (i : Nat) (h : i < l.length) :
    (nth l i).2 ≤ countSum l := by
  induction l generalizing i with
  | nil => simp at h
  | cons b t ih =>
    cases i with
    | zero =>
      rw [nth_cons_zero, countSum_cons]
      omega
    | succ j =>
      rw [nth_cons_succ, countSum_cons]
      have := ih j (by simpa using h)
      omega

/-- All four invariants after the count-reaches-zero path of `Counter::remove`
(overwrite the slot with the last entry, then pop the tail). -/
theorem remove_core_zero (l : List (T × Nat)) (i1 : Nat) (hlt : i1 < l.length)
    (hs : sortedDesc l) (hpos : posCounts l) (hnd : nodupKeys l)
    (hc : (nth l i1).2 = 1) :
    sortedDesc ((l.set i1 ((nth l i1).1, (nth l i1).2 - 1)).set i1
        (nth (l.set i1 ((nth l i1).1, (nth l i1).2 - 1))
          ((l.set i1 ((nth l i1).1, (nth l i1).2 - 1)).length - 1))).dropLast ∧
    countSum ((l.set i1 ((nth l i1).1, (nth l i1).2 - 1)).set i1
        (nth (l.set i1 ((nth l i1).1, (nth l i1).2 - 1))
          ((l.set i1 ((nth l i1).1, (nth l i1).2 - 1)).length - 1))).dropLast + 1 =
      countSum l ∧
    posCounts ((l.set i1 ((nth l i1).1, (nth l i1).2 - 1)).set i1
        (nth (l.set i1 ((nth l i1).1, (nth l i1).2 - 1))
          ((l.set i1 ((nth l i1).1, (nth l i1).2 - 1)).length - 1))).dropLast ∧
    nodupKeys ((l.set i1 ((nth l i1).1, (nth l i1).2 - 1)).set i1
        (nth (l.set i1 ((nth l i1).1, (nth l i1).2 - 1))
          ((l.set i1 ((nth l i1).1, (nth l i1).2 - 1)).length - 1))).dropLast := by
  set items1 := l.set i1 ((nth l i1).1, (nth l i1).2 - 1) with hitems1
  set n := l.length with hn
  have len1 : items1.length = n := by rw [hitems1, List.length_set]
  rw [len1]
  set M := nth items1 (n - 1) with hM
  set S2 := items1.set i1 M with hS2
  have hn1 : 0 < n := by omega
  have len2 : S2.length = n := by rw [hS2, List.length_set, len1]
  have hproj : (((nth l i1).1, (nth l i1).2 - 1) : T × Nat).2 = (nth l i1).2 - 1 := rfl
  have hv_i1 : nth items1 i1 = ((nth l i1).1, (nth l i1).2 - 1) := by
    rw [hitems1]
    exact nth_set_self l i1 _ hlt
  have hv_ne : ∀ p, p ≠ i1 → nth items1 p = nth l p := by
    intro p hp
    rw [hitems1]
    exact nth_set_ne l i1 p _ (fun he => hp he.symm)
  have htail : ∀ q, i1 < q → q < n → (nth l q).2 = 1 := by
    intro q h1 h2
    have h3 := hs i1 q h1 h2
    have h4 := hpos q h2
    omega
  have hS2_i1 : nth S2 i1 = M := by
    rw [hS2]
    exact nth_set_self items1 i1 M (by omega)
  have hS2_ne : ∀ p, p ≠ i1 → nth S2 p = nth l p := by
    intro p hp
    rw [hS2, nth_set_ne items1 i1 p M (fun he => hp he.symm)]
    exact hv_ne p hp
  have hMe : i1 = n - 1 → M = ((nth l i1).1, (nth l i1).2 - 1) := by
    intro he
    rw [hM, ← he, hv_i1]
  have hMne : ¬ i1 = n - 1 → M = nth l (n - 1) := by
    intro he
    rw [hM]
    exact hv_ne (n - 1) (fun hh => he hh.symm)
  refine ⟨?_, ?_, ?_, ?_⟩
  · -- sortedness
    intro p q hpq hq
    rw [List.length_dropLast, len2] at hq
    rw [nth_dropLast _ _ (by rw [len2]; omega), nth_dropLast _ _ (by rw [len2]; omega)]
    by_cases hqi : q = i1
    · have hie : ¬ i1 = n - 1 := by omega
      rw [hqi, hS2_i1, hMne hie]
      have hM2 := htail (n - 1) (by omega) (by omega)
      rw [hM2, hS2_ne p (by omega)]
      exact hpos p (by omega)
    · rw [hS2_ne q hqi]
      by_cases hpi : p = i1
      · have hie : ¬ i1 = n - 1 := by omega
        rw [hpi, hS2_i1, hMne hie]
        have hM2 := htail (n - 1) (by omega) (by omega)
        have hq2 := htail q (by omega) (by omega)
        omega
      · rw [hS2_ne p hpi]
        exact hs p q hpq (by omega)
  · -- count sum
    have hne : S2 ≠ [] := by
      intro he
      have h2 := len2
      rw [he] at h2
      simp at h2
      omega
    have hdrop := countSum_dropLast S2 hne
    rw [len2] at hdrop
    have hcs1 := countSum_set l i1 ((nth l i1).1, (nth l i1).2 - 1) hlt
    rw [← hitems1, hproj] at hcs1
    have hcs2 := countSum_set items1 i1 M (by omega)
    rw [← hS2, hv_i1, hproj] at hcs2
    by_cases hie : i1 = n - 1
    · have h1 : nth S2 (n - 1) = M := by rw [← hie, hS2_i1]
      rw [h1] at hdrop
      have hM2 : M.2 = (nth l i1).2 - 1 := by rw [hMe hie]
      omega
    · have h1 : nth S2 (n - 1) = nth l (n - 1) := hS2_ne (n - 1) (fun hh => hie hh.symm)
      rw [h1] at hdrop
      have hM2 : M.2 = (nth l (n - 1)).2 := by rw [hMne hie]
      have htl := htail (n - 1) (by omega) (by omega)
      omega
  · -- positive counts
    intro p hp
    rw [List.length_dropLast, len2] at hp
    rw [nth_dropLast _ _ (by rw [len2]; omega)]
    by_cases hpi : p = i1
    · have hie : ¬ i1 = n - 1 := by omega
      rw [hpi, hS2_i1, hMne hie]
      exact hpos (n - 1) (by omega)
    · rw [hS2_ne p hpi]
      exact hpos p (by omega)
  · -- nodup keys
    intro p q hpq hq
    rw [List.length_dropLast, len2] at hq
    rw [nth_dropLast _ _ (by rw [len2]; omega), nth_dropLast _ _ (by rw [len2]; omega)]
    by_cases hpi : p = i1 <;> by_cases hqi : q = i1
    · omega
    · have hie : ¬ i1 = n - 1 := by omega
      rw [hpi, hS2_i1, hMne hie, hS2_ne q hqi]
      exact nodupKeys_ne l hnd (n - 1) q (by omega) (by omega) (by omega)
    · have hie : ¬ i1 = n - 1 := by omega
      rw [hqi, hS2_i1, hMne hie, hS2_ne p hpi]
      exact nodupKeys_ne l hnd p (n - 1) (by omega) (by omega) (by omega)
    · rw [hS2_ne p hpi, hS2_ne q hqi]
      exact hnd p q hpq (by omega)

/-- All four invariants after the decrement-and-swap path of `Counter::remove`. -/
theorem remove_core_pos (l : List (T × Nat)) (i1 : Nat) (hlt : i1 < l.length)
    (hs : sortedDesc l) (hpos : posCounts l) (hnd : nodupKeys l)
    (hc : 2 ≤ (nth l i1).2) :
    sortedDesc (removeScan (l.set i1 ((nth l i1).1, (nth l i1).2 - 1)) i1
      ((nth l i1).2 - 1) (i1 + 1)) ∧
    countSum (removeScan (l.set i1 ((nth l i1).1, (nth l i1).2 - 1)) i1
      ((nth l i1).2 - 1) (i1 + 1)) + 1 = countSum l ∧
    posCounts (removeScan (l.set i1 ((nth l i1).1, (nth l i1).2 - 1)) i1
      ((nth l i1).2 - 1) (i1 + 1)) ∧
    nodupKeys (removeScan (l.set i1 ((nth l i1).1, (nth l i1).2 - 1)) i1
      ((nth l i1).2 - 1) (i1 + 1)) := by
  set c0 := (nth l i1).2 with hc0
  set cnt := c0 - 1 with hcnt
  set items1 := l.set i1 ((nth l i1).1, cnt) with hitems1
  have len1 : items1.length = l.length := by rw [hitems1, List.length_set]
  have hproj : (((nth l i1).1, cnt) : T × Nat).2 = cnt := rfl
  have hv_i1 : nth items1 i1 = ((nth l i1).1, cnt) := by
    rw [hitems1]
    exact nth_set_self l i1 _ hlt
  have hv_ne : ∀ p, p ≠ i1 → nth items1 p = nth l p := by
    intro p hp
    rw [hitems1]
    exact nth_set_ne l i1 p _ (fun he => hp he.symm)
  obtain ⟨d, heq, hd1, hd2, ha, hb⟩ :=
    removeScan_char items1 i1 cnt (by omega) (items1.length - (i1 + 1)) (i1 + 1)
      (Nat.le_refl _) (by omega) (Or.inr rfl) (by intro q h1 h2; omega)
  rw [len1] at hd2
  have ha2 : ∀ q, i1 < q → q ≤ d → (nth l q).2 = c0 := by
    intro q h1 h2
    have h3 := ha q h1 h2
    rw [hv_ne q (by omega)] at h3
    have h4 := hs i1 q h1 (by omega)
    omega
  have hb2 : ∀ q, d < q → q < l.length → (nth l q).2 ≤ cnt := by
    intro q h1 h2
    have h3 := hb (by omega)
    rw [hv_ne (d + 1) (by omega)] at h3
    rcases Nat.eq_or_lt_of_le (show d + 1 ≤ q by omega) with he | hlt2
    · rw [← he]
      exact h3
    · have h5 := hs (d + 1) q hlt2 h2
      omega
  have hbL : ∀ x, x < i1 → c0 ≤ (nth l x).2 := fun x hx => hs x i1 hx hlt
  have hi1m : i1 < items1.length := by omega
  have hdm : d < items1.length := by omega
  have hSnth : ∀ x, nth (listSwap items1 i1 d) x =
      nth items1 (if x = i1 then d else if x = d then i1 else x) :=
    fun x => nth_listSwap_idx items1 i1 d x hi1m hdm
  have hvL : ∀ x, x < i1 → nth (listSwap items1 i1 d) x = nth l x := by
    intro x hx
    rw [hSnth x, if_neg (by omega), if_neg (by omega)]
    exact hv_ne x (by omega)
  have hvI1 : ∀ x, x = i1 → d = i1 → (nth (listSwap items1 i1 d) x).2 = cnt := by
    intro x hx hde
    rw [hSnth x, if_pos hx, hde, hv_i1]
  have hvI2 : ∀ x, x = i1 → i1 < d → (nth (listSwap items1 i1 d) x).2 = c0 := by
    intro x hx hde
    rw [hSnth x, if_pos hx, hv_ne d (by omega)]
    exact ha2 d (by omega) (Nat.le_refl d)
  have hvM : ∀ x, i1 < x → x < d → (nth (listSwap items1 i1 d) x).2 = c0 := by
    intro x h1 h2
    rw [hSnth x, if_neg (by omega), if_neg (by omega), hv_ne x (by omega)]
    exact ha2 x h1 (by omega)
  have hvD : ∀ x, x = d → i1 < d → (nth (listSwap items1 i1 d) x).2 = cnt := by
    intro x hx hd3
    rw [hSnth x, if_neg (by omega), if_pos hx, hv_i1]
  have hvR : ∀ x, d < x → nth (listSwap items1 i1 d) x = nth l x := by
    intro x h1
    rw [hSnth x, if_neg (by omega), if_neg (by omega)]
    exact hv_ne x (by omega)
  refine ⟨?_, ?_, ?_, ?_⟩
  · rw [heq]
    intro p q hpq hq
    rw [length_listSwap, len1] at hq
    rcases Nat.lt_or_ge q i1 with hq1 | hq1
    · rw [hvL q hq1, hvL p (by omega)]
      exact hs p q hpq (by omega)
    rcases Nat.eq_or_lt_of_le hq1 with hq2 | hq2
    · rcases Nat.eq_or_lt_of_le hd1 with hde | hde
      · rw [hvI1 q hq2.symm hde.symm, hvL p (by omega)]
        have := hbL p (by omega)
        omega
      · rw [hvI2 q hq2.symm hde, hvL p (by omega)]
        have := hbL p (by omega)
        omega
    rcases Nat.lt_or_ge q d with hq3 | hq3
    · rw [hvM q hq2 hq3]
      rcases Nat.lt_or_ge p i1 with hp1 | hp1
      · rw [hvL p hp1]
        have := hbL p hp1
        omega
      rcases Nat.eq_or_lt_of_le hp1 with hp2 | hp2
      · rw [hvI2 p hp2.symm (by omega)]
      · rw [hvM p hp2 (by omega)]
    rcases Nat.eq_or_lt_of_le hq3 with hq4 | hq4
    · rw [hvD q hq4.symm (by omega)]
      rcases Nat.lt_or_ge p i1 with hp1 | hp1
      · rw [hvL p hp1]
        have := hbL p hp1
        omega
      rcases Nat.eq_or_lt_of_le hp1 with hp2 | hp2
      · rw [hvI2 p hp2.symm (by omega)]
        omega
      · rw [hvM p hp2 (by omega)]
        omega
    · rw [hvR q hq4]
      have hqv := hb2 q hq4 hq
      rcases Nat.lt_or_ge p i1 with hp1 | hp1
      · rw [hvL p hp1]
        have := hbL p hp1
        omega
      rcases Nat.eq_or_lt_of_le hp1 with hp2 | hp2
      · rcases Nat.eq_or_lt_of_le hd1 with hde | hde
        · rw [hvI1 p hp2.symm hde.symm]
          omega
        · rw [hvI2 p hp2.symm hde]
          omega
      rcases Nat.lt_or_ge p d with hp3 | hp3
      · rw [hvM p hp2 hp3]
        omega
      rcases Nat.eq_or_lt_of_le hp3 with hp4 | hp4
      · rw [hvD p hp4.symm (by omega)]
        omega
      · rw [hvR p hp4]
        exact hs p q hpq hq
  · rw [heq]
    have h1 := countSum_listSwap items1 i1 d hi1m hdm
    have h2 := countSum_set l i1 ((nth l i1).1, cnt) hlt
    rw [← hitems1, hproj, ← hc0] at h2
    omega
  · rw [heq]
    apply posCounts_listSwap items1 i1 d hi1m hdm
    intro p hp
    rw [len1] at hp
    by_cases hpe : p = i1
    · rw [hpe, hv_i1, hproj]
      omega
    · rw [hv_ne p hpe]
      exact hpos p hp
  · rw [heq]
    apply nodupKeys_listSwap items1 i1 d hi1m hdm
    rw [hitems1]
    exact nodupKeys_set_same l i1 _ hlt rfl hnd

/-- `Counter::remove` on a present key preserves the counter invariant. -/
theorem Inv_remove (c : Counter T) (k : T) (hmem : ∃ x ∈ c.items, x.1 = k)
    (h : Inv c) : Inv (c.remove k) := by
  obtain ⟨hs, hsum, hpos, hnd⟩ := h
  obtain ⟨x, hx, hxk⟩ := hmem
  have hlt : keyIdx c.items k < c.items.length := keyIdx_lt_of_mem c.items k x hx hxk
  have hc0 : 0 < (nth c.items (keyIdx c.items k)).2 := hpos _ hlt
  have hcsum := nth_le_countSum c.items (keyIdx c.items k) hlt
  have htot : (c.remove k).total = c.total - 1 := by
    simp only [Counter.remove]
    split <;> rfl
  by_cases hz : (nth c.items (keyIdx c.items k)).2 - 1 = 0
  · have hitems : (c.remove k).items =
        ((c.items.set (keyIdx c.items k)
            ((nth c.items (keyIdx c.items k)).1, (nth c.items (keyIdx c.items k)).2 - 1)).set
          (keyIdx c.items k)
          (nth
            (c.items.set (keyIdx c.items k)
              ((nth c.items (keyIdx c.items k)).1, (nth c.items (keyIdx c.items k)).2 - 1))
            ((c.items.set (keyIdx c.items k)
                ((nth c.items (keyIdx c.items k)).1,
                  (nth c.items (keyIdx c.items k)).2 - 1)).length - 1))).dropLast := by
      simp only [Counter.remove, if_pos hz]
    obtain ⟨r1, r2, r3, r4⟩ :=
      remove_core_zero c.items (keyIdx c.items k) hlt hs hpos hnd (by omega)
    refine ⟨?_, ?_, ?_, ?_⟩
    · rw [hitems]
      exact r1
    · rw [hitems, htot]
      omega
    · rw [hitems]
      exact r3
    · rw [hitems]
      exact r4
  · have hitems : (c.remove k).items =
        removeScan
          (c.items.set (keyIdx c.items k)
            ((nth c.items (keyIdx c.items k)).1, (nth c.items (keyIdx c.items k)).2 - 1))
          (keyIdx c.items k) ((nth c.items (keyIdx c.items k)).2 - 1)
          (keyIdx c.items k + 1) := by
      simp only [Counter.remove, if_neg hz]
    obtain ⟨r1, r2, r3, r4⟩ :=
      remove_core_pos c.items (keyIdx c.items k) hlt hs hpos hnd (by omega)
    refine ⟨?_, ?_, ?_, ?_⟩
    · rw [hitems]
      exact r1
    · rw [hitems, htot]
      omega
    · rw [hitems]
      exact r3
    · rw [hitems]
      exact r4

theorem nodupKeys_map_fst (l : List (T × Nat)) (h : nodupKeys l) :
    (l.map (fun p => p.1)).Nodup := by
  induction l with
  | nil => simp
  | cons a t ih =>
    simp only [List.map_cons, List.nodup_cons]
    constructor
    · intro hmem
      rw [List.mem_map] at hmem
      obtain ⟨x, hxm, hx1⟩ := hmem
      obtain ⟨i, hi, hnth⟩ := mem_nth t x hxm
      have h2 := h 0 (i + 1) (by omega) (by simp; omega)
      rw [nth_cons_zero, nth_cons_succ, hnth] at h2
      exact h2 hx1.symm
    · apply ih
      intro p q hpq hq
      have h2 := h (p + 1) (q + 1) (by omega) (by simp; omega)
      rw [nth_cons_succ, nth_cons_succ] at h2
      exact h2

theorem posCounts_filter (l : List (T × Nat)) (h : posCounts l) :
    l.filter (fun p => decide (0 < p.2)) = l := by
  apply List.filter_eq_self.mpr
  intro x hxm
  obtain ⟨i, hi, hnth⟩ := mem_nth l x hxm
  have h2 := h i hi
  rw [hnth] at h2
  exact decide_eq_true h2

/-! ### Operation sequences on a counter (for the running invariant) -/

/-- A single counter mutation. -/
inductive COp (T : Type) where
  | add (k : T) : COp T
  | remove (k : T) : COp T

/-- Apply one mutation. -/
def applyOp (c : Counter T) : COp T → Counter T
  | .add k => c.add k
  | .remove k => c.remove k

/-- Apply a sequence of mutations in order. -/
def applyOps (c : Counter T) : List (COp T) → Counter T
  | [] => c
  | op :: rest => applyOps (applyOp c op) rest

/-- A sequence is valid when every `remove` targets a currently present key. -/
def ValidOps (c : Counter T) : List (COp T) → Prop
  | [] => True
  | op :: rest =>
    (match op with
     | .add _ => True
     | .remove k => ∃ x ∈ c.items, x.1 = k) ∧ ValidOps (applyOp c op) rest

theorem Inv_new : Inv (Counter.new : Counter T) := by
  refine ⟨?_, rfl, ?_, ?_⟩
  · intro p q hpq hq
    simp [Counter.new] at hq
  · intro p hp
    simp [Counter.new] at hp
  · intro p q hpq hq
    simp [Counter.new] at hq

theorem Inv_applyOps (ops : List (COp T)) :
    ∀ c : Counter T, Inv c → ValidOps c ops → Inv (applyOps c ops) := by
  induction ops with
  | nil =>
    intro c h _
    exact h
  | cons op rest ih =>
    intro c h hv
    obtain ⟨hv1, hv2⟩ := hv
    apply ih (applyOp c op) _ hv2
    cases op with
    | add k => exact Inv_add c k h
    | remove k => exact Inv_remove c k hv1 h

/-! ## The transition index (src/chain.rs)

Tokens are the textual content of `Unigram` values (equality on `Unigram` is
content equality for every token the pipeline produces); the two `hashbrown`
maps are modelled as insertion-ordered association lists, since hashing only
affects bucket iteration order, never which keys map to which contents.  The
bump regions hold no observable content beyond the values themselves, so the
pure model elides them (the fallible-allocation model below reinstates them
for the error-propagation claims). -/

/-- A token (`&str` handed to `Chain::update`, or a `Unigram`'s text). -/
abbrev Token := String

/-- Byte length of a token (Rust `str::len` counts UTF-8 bytes). -/
def tokLen (s : Token) : Nat := s.utf8ByteSize

/-- `Bigram = (Unigram, Unigram)`. -/
abbrev Bigram := Token × Token

/-- The per-(bigram, topic) record vector `Vec<(i32, Option<Unigram>)>`. -/
abbrev RecordList := List (Int × Option Token)

/-- The per-bigram topic map. -/
abbrev TopicMap := List (Bigram × RecordList)

/-- The whole chain map `Bigram → TopicMap`. -/
abbrev ChainMap := List (Bigram × TopicMap)

instance : DecidableEq RecordList := inferInstance

instance : DecidableEq TopicMap := inferInstance

instance : DecidableEq ChainMap := inferInstance

/-- `HashMap::entry(k).or_insert(d)` followed by an in-place mutation `f` of
the entry's value, as an association-list operation. -/
def alUpdate {K V : Type} [DecidableEq K] (m : List (K × V)) (k : K) (d : V) (f : V → V) :
    List (K × V) :=
  match m with
  | [] => [(k, f d)]
  | (k2, v) :: rest => if k2 = k then (k2, f v) :: rest else (k2, v) :: alUpdate rest k d f

/-- `HashMap::get`. -/
def alLookup {K V : Type} [DecidableEq K] : List (K × V) → K → Option V
  | [], _ => none
  | (k2, v) :: rest, k => if k2 = k then some v else alLookup rest k

/-- `HashMap::insert` (replace if present, else append). -/
def alInsert {K V : Type} [DecidableEq K] (m : List (K × V)) (k : K) (v : V) : List (K × V) :=
  match m with
  | [] => [(k, v)]
  | (k2, v2) :: rest => if k2 = k then (k2, v) :: rest else (k2, v2) :: alInsert rest k v

/-- The nested push of `Chain::update`:
`chain.entry(bigram).or_insert(..).entry(topic).or_insert(..).push(rec)`. -/
def chainPush (m : ChainMap) (bg t : Bigram) (r : Int × Option Token) : ChainMap :=
  alUpdate m bg [] (fun tm => alUpdate tm t [] (fun rs => rs ++ [r]))

/-- The transition index (`Chain` in src/chain.rs); the two bump pools and the
hasher state carry no record content and are elided. -/
structure Chain where
  halfParaLen : Nat
  pruneSize : Nat
  pruneThreshold : Nat
  chain : ChainMap
deriving DecidableEq, Repr

/-- `Chain::new(half_para_len, prune_size, prune_threshold)`: an empty map
with the given configuration. -/
def Chain.new (halfParaLen pruneSize pruneThreshold : Nat) : Chain :=
  ⟨halfParaLen, pruneSize, pruneThreshold, []⟩

/-- The sliding-window counter maintenance at position `i` of the update loop
(src/chain.rs lines 82–106): Nat subtraction is the `saturating_sub` of the
source. -/
def counterStep (words : List Token) (H i : Nat) (c : Counter Token) : Counter Token :=
  let start := i - H
  let stop := min (i + H) words.length
  let para := (words.drop start).take (stop - start)
  if i = 0 then
    (para.filter (fun w => decide (2 < tokLen w))).foldl (fun c w => c.add w) c
  else
    let c1 :=
      if 0 < start then
        if 2 < tokLen (words.getD start "") then c.remove (words.getD start "") else c
      else c
    if stop < words.length ∨ i + H = words.length then
      if 2 < tokLen (words.getD (stop - 1) "") then c1.add (words.getD (stop - 1) "") else c1
    else c1

/-- State threaded through the update loop. -/
structure LoopState where
  counter : Counter Token
  seqNum : Int
  prevTopic : Bigram
  chain : ChainMap
deriving DecidableEq, Repr

/-- The topic bigram derived at one position:
`(most_frequent(1).unwrap().0, most_frequent(2).unwrap().0)` (the unwraps are
guarded by the break condition, modelled by `getD`). -/
def stepTopic (c : Counter Token) : Bigram :=
  (((c.mostFrequent 1).getD dflt).1, ((c.mostFrequent 2).getD dflt).1)

/-- The sequence number recorded at one position (reset on topic change). -/
def stepSeq (s : LoopState) (c : Counter Token) : Int :=
  if stepTopic c ≠ s.prevTopic then 0 else s.seqNum

/-- The transition record emitted at position `i` (ghost trace entry). -/
structure TEntry where
  pos : Nat
  bigram : Bigram
  topic : Bigram
  seq : Int
  next : Option Token
deriving DecidableEq, Repr

/-- The entry emitted at position `i`. -/
def stepEntry (words : List Token) (i : Nat) (s : LoopState) (c : Counter Token) : TEntry :=
  ⟨i, (words.getD i "", words.getD (i + 1) ""), stepTopic c, stepSeq s c, words.get? (i + 2)⟩

/-- The loop state after position `i` (sequence counter incremented, previous
topic updated via the content-preserving `clone_in`, record pushed). -/
def stepState (words : List Token) (i : Nat) (s : LoopState) (c : Counter Token) : LoopState :=
  ⟨c, stepSeq s c + 1,
    (if stepTopic c ≠ s.prevTopic then stepTopic c else s.prevTopic),
    chainPush s.chain (words.getD i "", words.getD (i + 1) "") (stepTopic c)
      (stepSeq s c, words.get? (i + 2))⟩

/-- The update loop `for i in 0..(words.len() - 1)` of `Chain::update`,
instrumented with the list of emitted transition records (the loop runs
`fuel = words.len() - 1 - i` more iterations unless the context-starvation
break fires). -/
def updateLoop (words : List Token) (H : Nat) : Nat → Nat → LoopState → LoopState × List TEntry
  | 0, _, s => (s, [])
  | fuel + 1, i, s =>
    let c := counterStep words H i s.counter
    if c.total < 3 ∨ c.items.length < 2 then ({ s with counter := c }, [])
    else
      let res := updateLoop words H fuel (i + 1) (stepState words i s c)
      (res.1, stepEntry words i s c :: res.2)

/-- `Chain::update(words)` (src/chain.rs lines 67–145), returning the updated
index and the ghost trace of emitted records.  The allocation-size-triggered
prune at the end operates on allocator state and is modelled separately by
`Chain.prune`. -/
def Chain.update (ch : Chain) (words : List Token) : Chain × List TEntry :=
  if words.length < ch.halfParaLen then (ch, [])
  else
    let res := updateLoop words ch.halfParaLen (words.length - 1) 0
      ⟨Counter.new, 0, ("", ""), ch.chain⟩
    ({ ch with chain := res.1.chain }, res.2)

/-- `clone_in`: the cross-region copy reproduces the token's content. -/
def cloneTokenIn (t : Token) : Token := t

/-- `CloneIn for (T, T)`: component-wise. -/
def cloneBigramIn (b : Bigram) : Bigram := (cloneTokenIn b.1, cloneTokenIn b.2)

/-- The inner rebuild of one record vector during `Chain::prune`
(`new_unigrams.push((unigram.0, clone of unigram.1))` in iteration order). -/
def cloneRecords (rs : RecordList) : RecordList :=
  rs.map (fun r => (r.1, r.2.map cloneTokenIn))

/-- The rebuild of one topic map during `Chain::prune` (fresh map, entries
inserted in iteration order with deep-copied keys and vectors). -/
def rebuildTopicMap (tm : TopicMap) : TopicMap :=
  tm.foldl (fun acc p => alInsert acc (cloneBigramIn p.1) (cloneRecords p.2)) []

/-- `Chain::prune` (src/chain.rs lines 151–185): keep exactly the entries
whose topic map has at least `prune_threshold` keys, deep-copying all kept
content into the fresh destination map. -/
def Chain.prune (ch : Chain) : Chain :=
  let kept := ch.chain.filter (fun p => decide (ch.pruneThreshold ≤ p.2.length))
  let newChain :=
    kept.foldl (fun acc p => alInsert acc (cloneBigramIn p.1) (rebuildTopicMap p.2)) []
  { ch with chain := newChain }

/-- Records listed under `(bg, t)` (empty when absent). -/
def lookup2 (m : ChainMap) (bg t : Bigram) : RecordList :=
  match alLookup m bg with
  | none => []
  | some tm => (alLookup tm t).getD []

/-- Number of records in one topic map. -/
def tmRecords (tm : TopicMap) : Nat := (tm.map (fun p => p.2.length)).sum

/-- Total number of transition records in the index. -/
def recordCount (m : ChainMap) : Nat := (m.map (fun p => tmRecords p.2)).sum

/-! ### Association-list lemmas -/

theorem alLookup_alUpdate_self {K V : Type} [DecidableEq K]
    (m : List (K × V)) (k : K) (d : V) (f : V → V) :
    alLookup (alUpdate m k d f) k = some (f ((alLookup m k).getD d)) := by
  induction m with
  | nil => simp [alUpdate, alLookup]
  | cons a rest ih =>
    obtain ⟨k2, v⟩ := a
    by_cases h : k2 = k
    · simp [alUpdate, alLookup, h]
    · simp [alUpdate, alLookup, h, ih]

theorem alLookup_alUpdate_ne {K V : Type} [DecidableEq K]
    (m : List (K × V)) (k k2 : K) (d : V) (f : V → V) (h : k2 ≠ k) :
    alLookup (alUpdate m k d f) k2 = alLookup m k2 := by
  induction m with
  | nil =>
    simp only [alUpdate, alLookup]
    rw [if_neg (fun he => h he.symm)]
  | cons a rest ih =>
    obtain ⟨k3, v⟩ := a
    by_cases h3 : k3 = k
    · subst h3
      simp only [alUpdate, if_pos rfl, alLookup]
      rw [if_neg (fun he => h he.symm), if_neg (fun he => h he.symm)]
    · simp only [alUpdate, if_neg h3, alLookup]
      rw [ih]

theorem lookup2_chainPush_self (m : ChainMap) (bg t : Bigram) (r : Int × Option Token) :
    lookup2 (chainPush m bg t r) bg t = lookup2 m bg t ++ [r] := by
  unfold lookup2 chainPush
  rw [alLookup_alUpdate_self]
  cases hm : alLookup m bg with
  | none => simp [alLookup_alUpdate_self, alLookup]
  | some tm => simp [alLookup_alUpdate_self]

theorem lookup2_chainPush_ne (m : ChainMap) (bg t bg2 t2 : Bigram) (r : Int × Option Token)
    (h : ¬(bg2 = bg ∧ t2 = t)) :
    lookup2 (chainPush m bg t r) bg2 t2 = lookup2 m bg2 t2 := by
  by_cases hbg : bg2 = bg
  · have ht : t2 ≠ t := fun he => h ⟨hbg, he⟩
    subst hbg
    unfold lookup2 chainPush
    rw [alLookup_alUpdate_self]
    cases hm : alLookup m bg2 with
    | none =>
      simp only [Option.getD_none]
      simp only [alUpdate, alLookup]
      rw [if_neg (fun he => ht he.symm)]
      rfl
    | some tm =>
      simp only [Option.getD_some]
      rw [alLookup_alUpdate_ne _ _ _ _ _ ht]
  · unfold lookup2 chainPush
    rw [alLookup_alUpdate_ne _ _ _ _ _ hbg]

theorem tmRecords_push (tm : TopicMap) (t : Bigram) (r : Int × Option Token) :
    tmRecords (alUpdate tm t [] (fun rs => rs ++ [r])) = tmRecords tm + 1 := by
  induction tm with
  | nil => simp [alUpdate, tmRecords]
  | cons a rest ih =>
    obtain ⟨t2, rs⟩ := a
    by_cases h : t2 = t
    · simp [alUpdate, tmRecords, h]
      omega
    · simp only [alUpdate, if_neg h, tmRecords, List.map_cons, List.sum_cons] at ih ⊢
      omega

theorem recordCount_chainPush (m : ChainMap) (bg t : Bigram) (r : Int × Option Token) :
    recordCount (chainPush m bg t r) = recordCount m + 1 := by
  unfold chainPush
  induction m with
  | nil =>
    simp [alUpdate, recordCount, tmRecords_push, tmRecords]
  | cons a rest ih =>
    obtain ⟨bg2, tm⟩ := a
    by_cases h : bg2 = bg
    · simp only [alUpdate, if_pos h, recordCount, List.map_cons, List.sum_cons]
      rw [tmRecords_push]
      omega
    · simp only [alUpdate, if_neg h, recordCount, List.map_cons, List.sum_cons] at ih ⊢
      omega

/-! ### Update-loop lemmas -/

theorem updateLoop_break (words : List Token) (H fuel i : Nat) (s : LoopState)
    (hg : (counterStep words H i s.counter).total < 3 ∨
      (counterStep words H i s.counter).items.length < 2) :
    updateLoop words H (fuel + 1) i s =
      ({ s with counter := counterStep words H i s.counter }, []) := by
  rw [updateLoop]
  simp only [if_pos hg]

theorem updateLoop_cont (words : List Token) (H fuel i : Nat) (s : LoopState)
    (hg : ¬((counterStep words H i s.counter).total < 3 ∨
      (counterStep words H i s.counter).items.length < 2)) :
    updateLoop words H (fuel + 1) i s =
      ((updateLoop words H fuel (i + 1)
          (stepState words i s (counterStep words H i s.counter))).1,
        stepEntry words i s (counterStep words H i s.counter) ::
          (updateLoop words H fuel (i + 1)
            (stepState words i s (counterStep words H i s.counter))).2) := by
  rw [updateLoop]
  simp only [if_neg hg]

theorem updateLoop_mem (words : List Token) (H : Nat) :
    ∀ fuel i s, ∀ e ∈ (updateLoop words H fuel i s).2,
      i ≤ e.pos ∧ e.pos < i + fuel ∧
      e.bigram = (words.getD e.pos "", words.getD (e.pos + 1) "") ∧
      e.next = words.get? (e.pos + 2) := by
  intro fuel
  induction fuel with
  | zero =>
    intro i s e he
    simp [updateLoop] at he
  | succ fuel ih =>
    intro i s e he
    by_cases hg : (counterStep words H i s.counter).total < 3 ∨
        (counterStep words H i s.counter).items.length < 2
    · rw [updateLoop_break words H fuel i s hg] at he
      simp at he
    · rw [updateLoop_cont words H fuel i s hg] at he
      rcases List.mem_cons.mp he with he | he
      · subst he
        have hp : (stepEntry words i s (counterStep words H i s.counter)).pos = i := rfl
        refine ⟨by rw [hp], by rw [hp]; omega, rfl, rfl⟩
      · obtain ⟨h1, h2, h3, h4⟩ := ih (i + 1) _ e he
        exact ⟨by omega, by omega, h3, h4⟩

theorem updateLoop_pos (words : List Token) (H : Nat) :
    ∀ fuel i s, (updateLoop words H fuel i s).2.map TEntry.pos =
      List.range' i (updateLoop words H fuel i s).2.length := by
  intro fuel
  induction fuel with
  | zero =>
    intro i s
    simp [updateLoop]
  | succ fuel ih =>
    intro i s
    by_cases hg : (counterStep words H i s.counter).total < 3 ∨
        (counterStep words H i s.counter).items.length < 2
    · rw [updateLoop_break words H fuel i s hg]
      simp
    · rw [updateLoop_cont words H fuel i s hg]
      simp only [List.map_cons, List.length_cons]
      rw [ih (i + 1)]
      rfl

theorem updateLoop_recordCount (words : List Token) (H : Nat) :
    ∀ fuel i s, recordCount (updateLoop words H fuel i s).1.chain =
      recordCount s.chain + (updateLoop words H fuel i s).2.length := by
  intro fuel
  induction fuel with
  | zero =>
    intro i s
    simp [updateLoop]
  | succ fuel ih =>
    intro i s
    by_cases hg : (counterStep words H i s.counter).total < 3 ∨
        (counterStep words H i s.counter).items.length < 2
    · rw [updateLoop_break words H fuel i s hg]
      simp
    · rw [updateLoop_cont words H fuel i s hg]
      have h2 := ih (i + 1) (stepState words i s (counterStep words H i s.counter))
      simp only [List.length_cons]
      rw [h2]
      have h3 : (stepState words i s (counterStep words H i s.counter)).chain =
          chainPush s.chain (words.getD i "", words.getD (i + 1) "")
            (stepTopic (counterStep words H i s.counter))
            (stepSeq s (counterStep words H i s.counter), words.get? (i + 2)) := rfl
      rw [h3, recordCount_chainPush]
      omega

theorem updateLoop_lookup (words : List Token) (H : Nat) :
    ∀ fuel i s bg t,
      lookup2 (updateLoop words H fuel i s).1.chain bg t =
        lookup2 s.chain bg t ++
          ((updateLoop words H fuel i s).2.filter
            (fun e => decide (e.bigram = bg ∧ e.topic = t))).map (fun e => (e.seq, e.next)) := by
  intro fuel
  induction fuel with
  | zero =>
    intro i s bg t
    simp [updateLoop]
  | succ fuel ih =>
    intro i s bg t
    by_cases hg : (counterStep words H i s.counter).total < 3 ∨
        (counterStep words H i s.counter).items.length < 2
    · rw [updateLoop_break words H fuel i s hg]
      simp
    · rw [updateLoop_cont words H fuel i s hg]
      have h2 := ih (i + 1) (stepState words i s (counterStep words H i s.counter)) bg t
      have h3 : (stepState words i s (counterStep words H i s.counter)).chain =
          chainPush s.chain (words.getD i "", words.getD (i + 1) "")
            (stepTopic (counterStep words H i s.counter))
            (stepSeq s (counterStep words H i s.counter), words.get? (i + 2)) := rfl
      rw [h2, h3]
      by_cases hmatch : (words.getD i "", words.getD (i + 1) "") = bg ∧
          stepTopic (counterStep words H i s.counter) = t
      · obtain ⟨hm1, hm2⟩ := hmatch
        subst hm1
        subst hm2
        rw [lookup2_chainPush_self]
        have hfil : List.filter
            (fun e => decide (e.bigram = (words.getD i "", words.getD (i + 1) "") ∧
              e.topic = stepTopic (counterStep words H i s.counter)))
            (stepEntry words i s (counterStep words H i s.counter) ::
              (updateLoop words H fuel (i + 1)
                (stepState words i s (counterStep words H i s.counter))).2) =
            stepEntry words i s (counterStep words H i s.counter) ::
              List.filter
                (fun e => decide (e.bigram = (words.getD i "", words.getD (i + 1) "") ∧
                  e.topic = stepTopic (counterStep words H i s.counter)))
                (updateLoop words H fuel (i + 1)
                  (stepState words i s (counterStep words H i s.counter))).2 := by
          rw [List.filter_cons_of_pos]
          simp [stepEntry]
        rw [hfil]
        simp only [List.map_cons, List.append_assoc, List.singleton_append]
        rfl
      · dsimp only
        rw [lookup2_chainPush_ne _ _ _ _ _ _ (fun hc => hmatch ⟨hc.1.symm, hc.2.symm⟩)]
        have hfil : List.filter (fun e => decide (e.bigram = bg ∧ e.topic = t))
            (stepEntry words i s (counterStep words H i s.counter) ::
              (updateLoop words H fuel (i + 1)
                (stepState words i s (counterStep words H i s.counter))).2) =
            List.filter (fun e => decide (e.bigram = bg ∧ e.topic = t))
              (updateLoop words H fuel (i + 1)
                (stepState words i s (counterStep words H i s.counter))).2 := by
          rw [List.filter_cons_of_neg]
          simp only [stepEntry, decide_eq_true_eq]
          exact fun hc => hmatch ⟨hc.1, hc.2⟩
        rw [hfil]

/-- The sequence-numbering discipline of a trace, relative to the incoming
previous topic and sequence counter. -/
def seqOk : Bigram → Int → List TEntry → Prop
  | _, _, [] => True
  | pt, sq, e :: tr => (e.seq = if e.topic = pt then sq else 0) ∧ seqOk e.topic (e.seq + 1) tr

theorem updateLoop_seqOk (words : List Token) (H : Nat) :
    ∀ fuel i s, seqOk s.prevTopic s.seqNum (updateLoop words H fuel i s).2 := by
  intro fuel
  induction fuel with
  | zero =>
    intro i s
    simp [updateLoop, seqOk]
  | succ fuel ih =>
    intro i s
    by_cases hg : (counterStep words H i s.counter).total < 3 ∨
        (counterStep words H i s.counter).items.length < 2
    · rw [updateLoop_break words H fuel i s hg]
      simp [seqOk]
    · rw [updateLoop_cont words H fuel i s hg]
      constructor
      · show stepSeq s (counterStep words H i s.counter) = _
        by_cases he : stepTopic (counterStep words H i s.counter) = s.prevTopic <;>
          simp [stepSeq, stepEntry, he]
      · have h2 := ih (i + 1) (stepState words i s (counterStep words H i s.counter))
        by_cases he : stepTopic (counterStep words H i s.counter) = s.prevTopic
        · have hpt : (stepState words i s (counterStep words H i s.counter)).prevTopic =
              (stepEntry words i s (counterStep words H i s.counter)).topic := by
            simp [stepState, stepEntry, he]
          have hsq : (stepState words i s (counterStep words H i s.counter)).seqNum =
              (stepEntry words i s (counterStep words H i s.counter)).seq + 1 := rfl
          rw [hpt, hsq] at h2
          exact h2
        · have hpt : (stepState words i s (counterStep words H i s.counter)).prevTopic =
              (stepEntry words i s (counterStep words H i s.counter)).topic := by
            simp [stepState, stepEntry, he]
          have hsq : (stepState words i s (counterStep words H i s.counter)).seqNum =
              (stepEntry words i s (counterStep words H i s.counter)).seq + 1 := rfl
          rw [hpt, hsq] at h2
          exact h2

theorem seqOk_chain (tr : List TEntry) :
    ∀ pt sq, seqOk pt sq tr →
      List.Chain' (fun a b => b.seq = if b.topic = a.topic then a.seq + 1 else 0) tr := by
  induction tr with
  | nil =>
    intro pt sq _
    simp
  | cons e tr ih =>
    intro pt sq h
    obtain ⟨h1, h2⟩ := h
    cases tr with
    | nil => simp
    | cons e2 t =>
      rw [List.chain'_cons]
      exact ⟨h2.1, ih e.topic (e.seq + 1) h2⟩

theorem seqOk_head (tr : List TEntry) (pt : Bigram) (h : seqOk pt 0 tr) :
    ∀ e, tr.head? = some e → e.seq = 0 := by
  cases tr with
  | nil =>
    intro e he
    simp at he
  | cons e2 t =>
    intro e he
    simp only [List.head?_cons, Option.some_inj] at he
    subst he
    rw [h.1]
    exact ite_self 0

/-! ### The specified window maintenance (claim C5's wording) -/

/-- The sliding-window maintenance as the specification words it: seed at
`i = 0`; at `i > 0` remove `document[start]` exactly when `start > 0` (and it
is longer than 2 bytes), and add `document[end-1]` exactly when
`end < len ∨ i + H = len` (and it is longer than 2 bytes). -/
def specWindowStep (words : List Token) (H i : Nat) (c : Counter Token) : Counter Token :=
  let start := i - H
  let stop := min (i + H) words.length
  if i = 0 then
    ((words.drop start).take (stop - start)).foldl
      (fun c w => if 2 < tokLen w then c.add w else c) c
  else
    let c1 :=
      if 0 < start ∧ 2 < tokLen (words.getD start "") then c.remove (words.getD start "")
      else c
    if (stop < words.length ∨ i + H = words.length) ∧ 2 < tokLen (words.getD (stop - 1) "") then
      c1.add (words.getD (stop - 1) "")
    else c1

theorem foldl_filter_add (l : List Token) :
    ∀ c : Counter Token,
      (l.filter (fun w => decide (2 < tokLen w))).foldl (fun c w => c.add w) c =
        l.foldl (fun c w => if 2 < tokLen w then c.add w else c) c := by
  induction l with
  | nil =>
    intro c
    rfl
  | cons w rest ih =>
    intro c
    by_cases h : 2 < tokLen w
    · rw [List.filter_cons_of_pos (by simpa using h)]
      simp only [List.foldl_cons, if_pos h]
      exact ih (c.add w)
    · rw [List.filter_cons_of_neg (by simpa using h)]
      simp only [List.foldl_cons, if_neg h]
      exact ih c

theorem counterStep_eq_spec (words : List Token) (H i : Nat) (c : Counter Token) :
    counterStep words H i c = specWindowStep words H i c := by
  unfold counterStep specWindowStep
  by_cases h0 : i = 0
  · simp only [if_pos h0]
    exact foldl_filter_add _ c
  · simp only [if_neg h0]
    split_ifs <;> first | rfl | tauto

/-! ### Prune lemmas -/

theorem cloneBigramIn_id (b : Bigram) : cloneBigramIn b = b := rfl

theorem cloneRecords_id (rs : RecordList) : cloneRecords rs = rs := by
  unfold cloneRecords
  induction rs with
  | nil => rfl
  | cons r rest ih =>
    obtain ⟨sq, u⟩ := r
    cases u <;> simp [ih, cloneTokenIn]

theorem alLookup_eq_none {K V : Type} [DecidableEq K] (m : List (K × V)) (k : K)
    (h : ∀ p ∈ m, p.1 ≠ k) : alLookup m k = none := by
  induction m with
  | nil => rfl
  | cons a rest ih =>
    obtain ⟨k2, v⟩ := a
    simp only [alLookup]
    rw [if_neg (h (k2, v) (List.mem_cons_self _ _))]
    exact ih (fun p hp => h p (List.mem_cons_of_mem _ hp))

theorem alInsert_append {K V : Type} [DecidableEq K] (m : List (K × V)) (k : K) (v : V)
    (h : alLookup m k = none) : alInsert m k v = m ++ [(k, v)] := by
  induction m with
  | nil => rfl
  | cons a rest ih =>
    obtain ⟨k2, v2⟩ := a
    simp only [alLookup] at h
    by_cases h2 : k2 = k
    · rw [if_pos h2] at h
      simp at h
    · rw [if_neg h2] at h
      simp only [alInsert, if_neg h2, List.cons_append]
      rw [ih h]

theorem alLookup_append_sing {K V : Type} [DecidableEq K] (m : List (K × V)) (k k2 : K) (v : V)
    (h : alLookup m k2 = none) :
    alLookup (m ++ [(k, v)]) k2 = if k = k2 then some v else none := by
  induction m with
  | nil => rfl
  | cons a rest ih =>
    obtain ⟨k3, v3⟩ := a
    simp only [alLookup] at h
    by_cases h3 : k3 = k2
    · rw [if_pos h3] at h
      simp at h
    · rw [if_neg h3] at h
      simp only [List.cons_append, alLookup, if_neg h3]
      exact ih h

theorem foldl_alInsert_gen {K V W : Type} [DecidableEq K] (g : V → W) (l : List (K × V)) :
    ∀ acc : List (K × W),
      (∀ p ∈ l, alLookup acc p.1 = none) → (l.map Prod.fst).Nodup →
      l.foldl (fun acc p => alInsert acc p.1 (g p.2)) acc =
        acc ++ l.map (fun p => (p.1, g p.2)) := by
  induction l with
  | nil =>
    intro acc _ _
    simp
  | cons a rest ih =>
    intro acc hnone hnd
    obtain ⟨k0, v0⟩ := a
    simp only [List.foldl_cons, List.map_cons]
    rw [alInsert_append acc k0 (g v0) (hnone (k0, v0) (List.mem_cons_self _ _))]
    rw [ih (acc ++ [(k0, g v0)]) ?hn ?hd]
    · rw [List.append_assoc]
      rfl
    case hn =>
      intro p hp
      rw [alLookup_append_sing acc k0 p.1 (g v0)
        (hnone p (List.mem_cons_of_mem _ hp))]
      rw [if_neg]
      simp only [List.map_cons, List.nodup_cons] at hnd
      intro he
      exact hnd.1 (he ▸ List.mem_map_of_mem Prod.fst hp)
    case hd =>
      simp only [List.map_cons, List.nodup_cons] at hnd
      exact hnd.2

theorem rebuildTopicMap_id (tm : TopicMap) (h : (tm.map Prod.fst).Nodup) :
    rebuildTopicMap tm = tm := by
  unfold rebuildTopicMap
  have hfun : (fun (acc : TopicMap) (p : Bigram × RecordList) =>
      alInsert acc (cloneBigramIn p.1) (cloneRecords p.2)) =
      (fun acc p => alInsert acc p.1 (cloneRecords p.2)) := rfl
  rw [hfun, foldl_alInsert_gen cloneRecords tm [] (fun p _ => rfl) h]
  have hmapc : ∀ p ∈ tm, (p.1, cloneRecords p.2) = p := by
    intro p _
    rw [cloneRecords_id]
  rw [List.nil_append]
  calc tm.map (fun p => (p.1, cloneRecords p.2)) = tm.map id := List.map_congr_left hmapc
    _ = tm := List.map_id tm

theorem alLookup_filter {K V : Type} [DecidableEq K] (q : K × V → Bool) (m : List (K × V))
    (k : K) (hnd : (m.map Prod.fst).Nodup) :
    alLookup (m.filter q) k =
      match alLookup m k with
      | none => none
      | some v => if q (k, v) then some v else none := by
  induction m with
  | nil => rfl
  | cons a rest ih =>
    obtain ⟨k2, v⟩ := a
    simp only [List.map_cons, List.nodup_cons] at hnd
    by_cases h2 : k2 = k
    · subst h2
      simp only [alLookup, if_pos rfl]
      by_cases hq : q (k2, v)
      · rw [List.filter_cons_of_pos hq]
        simp [alLookup, hq]
      · rw [List.filter_cons_of_neg (by simpa using hq)]
        rw [alLookup_eq_none]
        · simp [hq]
        · intro p hp he
          exact hnd.1 (he ▸ List.mem_map_of_mem Prod.fst (List.mem_of_mem_filter hp))
    · simp only [alLookup, if_neg h2]
      by_cases hq : q (k2, v)
      · rw [List.filter_cons_of_pos hq]
        simp only [alLookup, if_neg h2]
        exact ih hnd.2
      · rw [List.filter_cons_of_neg (by simpa using hq)]
        exact ih hnd.2

/-- The characterization of `Chain::prune`: it keeps exactly the entries whose
topic map reaches the threshold, each content-identical, and drops the rest. -/
theorem prune_lookup (ch : Chain)
    (hnd : (ch.chain.map Prod.fst).Nodup)
    (htm : ∀ p ∈ ch.chain, (p.2.map Prod.fst).Nodup) :
    ∀ bg, alLookup (ch.prune).chain bg =
      match alLookup ch.chain bg with
      | none => none
      | some tm => if ch.pruneThreshold ≤ tm.length then some tm else none := by
  intro bg
  have hchain : (ch.prune).chain =
      ch.chain.filter (fun p => decide (ch.pruneThreshold ≤ p.2.length)) := by
    show (ch.chain.filter (fun p => decide (ch.pruneThreshold ≤ p.2.length))).foldl
        (fun acc p => alInsert acc (cloneBigramIn p.1) (rebuildTopicMap p.2)) [] = _
    have hfun : (fun (acc : ChainMap) (p : Bigram × TopicMap) =>
        alInsert acc (cloneBigramIn p.1) (rebuildTopicMap p.2)) =
        (fun acc p => alInsert acc p.1 (rebuildTopicMap p.2)) := rfl
    have hnd2 : ((ch.chain.filter
        (fun p => decide (ch.pruneThreshold ≤ p.2.length))).map Prod.fst).Nodup :=
      (hnd.sublist (List.Sublist.map Prod.fst (List.filter_sublist ch.chain)))
    rw [hfun, foldl_alInsert_gen rebuildTopicMap _ [] (fun p _ => rfl) hnd2,
      List.nil_append]
    have hmapc : ∀ p ∈ ch.chain.filter (fun p => decide (ch.pruneThreshold ≤ p.2.length)),
        (p.1, rebuildTopicMap p.2) = p := by
      intro p hp
      rw [rebuildTopicMap_id p.2 (htm p (List.mem_of_mem_filter hp))]
    calc (ch.chain.filter (fun p => decide (ch.pruneThreshold ≤ p.2.length))).map
          (fun p => (p.1, rebuildTopicMap p.2)) =
        (ch.chain.filter (fun p => decide (ch.pruneThreshold ≤ p.2.length))).map id :=
          List.map_congr_left hmapc
      _ = _ := List.map_id _
  rw [hchain, alLookup_filter _ _ _ hnd]
  cases alLookup ch.chain bg <;> simp

/-! ## Byte-level model of the compact string (src/unigram.rs)

The 16-byte `Unigram` stores up to `INLINE_CAP = 15` bytes inline (the data
field zeroed first) or a pointer to bytes copied into a bump region; the
sixteenth byte is the marker: low 7 bits hold the length `as u8`, the top bit
discriminates boxed from inline. -/

/-- A byte value (`u8`). -/
abbrev Byte := Nat

/-- `INLINE_CAP`. -/
def INLINE_CAP : Nat := 15

/-- `MARKER_LEN_MASK = 0b0111_1111`. -/
def MARKER_LEN_MASK : Nat := 127

/-- `MARKER_DISC_MASK = !MARKER_LEN_MASK` as a `u8`. -/
def MARKER_DISC_MASK : Nat := 128

/-- `Marker::new_inline(len)`: `len as u8`. -/
def markerInline (len : Nat) : Nat := len % 256

/-- `Marker::new_boxed(len)`: `(len as u8) | MARKER_DISC_MASK`. -/
def markerBoxed (len : Nat) : Nat := (len % 256) ||| MARKER_DISC_MASK

/-- `Marker::len()`: `(marker & MARKER_LEN_MASK) as usize`. -/
def markerLen (m : Nat) : Nat := m &&& MARKER_LEN_MASK

/-- `Marker::is_inline()`: `marker & MARKER_DISC_MASK == 0`. -/
def markerIsInline (m : Nat) : Bool := m &&& MARKER_DISC_MASK == 0

/-- A bump region ("pool"): the blocks allocated from it, in order.  bumpalo
allocation always succeeds here (the fallible variant is modelled separately
for the error-handling claims). -/
structure Pool where
  blocks : List (List Byte)

/-- `alloc.allocate(..)` + `copy_nonoverlapping`: append a block holding the
copied bytes and return its index as the stored pointer. -/
def Pool.allocate (p : Pool) (bytes : List Byte) : Pool × Nat :=
  (⟨p.blocks ++ [bytes]⟩, p.blocks.length)

/-- The 15-byte data field: inline bytes, or a pointer into the pool. -/
inductive UData where
  | inl (data : List Byte) : UData
  | boxed (ptr : Nat) : UData
deriving DecidableEq, Repr

/-- The 16-byte `Unigram` value. -/
structure Unigram where
  data : UData
  marker : Nat
deriving DecidableEq, Repr

/-- `Unigram::from_slice_inline`: start from zeroed bytes, copy the slice in,
set the inline marker. -/
def fromSliceInline (s : List Byte) : Unigram :=
  ⟨.inl (s ++ List.replicate (INLINE_CAP - s.length) 0), markerInline s.length⟩

/-- `Unigram::from_slice_in_boxed`: allocate, copy the slice into the region,
store the pointer, set the boxed marker. -/
def fromSliceInBoxed (s : List Byte) (p : Pool) : Unigram × Pool :=
  let ap := p.allocate s
  (⟨.boxed ap.2, markerBoxed s.length⟩, ap.1)

/-- `Unigram::from_slice_in`. -/
def fromSliceIn (s : List Byte) (p : Pool) : Unigram × Pool :=
  if INLINE_CAP < s.length then fromSliceInBoxed s p else (fromSliceInline s, p)

/-- `Unigram::len()`. -/
def Unigram.ulen (u : Unigram) : Nat := markerLen u.marker

/-- `Unigram::as_str()`: read `len()` bytes from the data pointer. -/
def Unigram.asStr (u : Unigram) (p : Pool) : List Byte :=
  match u.data with
  | .inl d => d.take u.ulen
  | .boxed ptr => ((p.blocks.get? ptr).getD []).take u.ulen

set_option maxRecDepth 4096 in
theorem mask127_small : ∀ a, a < 128 → a &&& 127 = a := by decide

set_option maxRecDepth 8192 in
theorem lor128_mask127 : ∀ a, a < 256 → (a ||| 128) &&& 127 = a % 128 := by decide

theorem markerLen_inline (len : Nat) (h : len < 128) : markerLen (markerInline len) = len := by
  unfold markerLen markerInline MARKER_LEN_MASK
  rw [Nat.mod_eq_of_lt (by omega)]
  exact mask127_small len h

theorem markerLen_boxed (len : Nat) : markerLen (markerBoxed len) = len % 128 := by
  unfold markerLen markerBoxed MARKER_LEN_MASK MARKER_DISC_MASK
  rw [lor128_mask127 (len % 256) (Nat.mod_lt len (by omega))]
  exact Nat.mod_mod_of_dvd len (by norm_num)

theorem take_append_replicate (s : List Byte) (n : Nat) :
    (s ++ List.replicate n 0).take s.length = s := by
  induction s with
  | nil => rfl
  | cons b t ih => simpa using ih

/-- Round trip of the inline representation. -/
theorem asStr_inline (s : List Byte) (p : Pool) (h : s.length ≤ INLINE_CAP) :
    (fromSliceInline s).asStr p = s := by
  unfold fromSliceInline Unigram.asStr Unigram.ulen
  simp only
  rw [markerLen_inline s.length (by unfold INLINE_CAP at h; omega)]
  exact take_append_replicate s _

/-- Round trip of the boxed representation, for representable lengths. -/
theorem asStr_boxed (s : List Byte) (p : Pool) (h : s.length < 128) :
    (fromSliceInBoxed s p).1.asStr (fromSliceInBoxed s p).2 = s := by
  unfold fromSliceInBoxed Pool.allocate Unigram.asStr Unigram.ulen
  simp only
  rw [List.get?_concat_length, Option.getD_some, markerLen_boxed,
    Nat.mod_eq_of_lt h, List.take_length]

/-- The boxed representation truncates: only `len % 128` is representable. -/
theorem asStr_boxed_trunc (s : List Byte) (p : Pool) :
    (fromSliceInBoxed s p).1.ulen = s.length % 128 ∧
    (fromSliceInBoxed s p).1.asStr (fromSliceInBoxed s p).2 = s.take (s.length % 128) := by
  unfold fromSliceInBoxed Pool.allocate Unigram.asStr Unigram.ulen
  simp only
  rw [List.get?_concat_length, Option.getD_some, markerLen_boxed]
  exact ⟨rfl, rfl⟩

/-! ## Fallible allocation model (spec §4.1, §6, §7)

`Chain::update` and `Chain::prune` (src/chain.rs) return
`Result<(), AllocError>` and call the `Unigram` constructors and `clone_in`
with `?`; `clone_in.rs` declares `CloneIn::clone_in -> Result<Self,
AllocError>`.  The copy of unigram.rs in the tree is the older infallible
variant (it unwraps allocations), so the fallible constructor itself is
modelled from the spec: inline construction (≤ 15 bytes) never calls the
allocator; boxed construction requests
`Layout::from_size_align(len, 16).pad_to_align()` bytes and fails with the
typed `AllocationFailure` when the region cannot satisfy the request. -/

/-- `AllocError` (the spec's `AllocationFailure`). -/
structure AllocationFailure where
deriving DecidableEq, Repr

/-- A region allocator with bounded backing memory. -/
structure Region where
  cap : Nat
  used : Nat
deriving DecidableEq, Repr

/-- `Layout::from_size_align(n, 16).pad_to_align()`. -/
def padTo16 (n : Nat) : Nat := ((n + 15) / 16) * 16

/-- One allocation request against the region. -/
def Region.allocate (r : Region) (n : Nat) : Except AllocationFailure Region :=
  if r.used + n ≤ r.cap then .ok { r with used := r.used + n } else .error ⟨⟩

/-- Modelled from the spec: the canonical fallible `Unigram::from_slice_in`. -/
def fromSliceInE (s : Token) (r : Region) : Except AllocationFailure (Token × Region) :=
  if 15 < tokLen s then
    match r.allocate (padTo16 (tokLen s)) with
    | .ok r2 => .ok (s, r2)
    | .error e => .error e
  else .ok (s, r)

/-- Modelled from the spec: fallible `clone_in` — bitwise copy for inline
values (no allocation), re-boxing into the target region otherwise; its
allocation behaviour coincides with `from_slice_in` on the token's text. -/
def cloneTokenInE (t : Token) (r : Region) : Except AllocationFailure (Token × Region) :=
  fromSliceInE t r

/-- `CloneIn for (T, T)`: clone both components in order (`?` is `bind`). -/
def cloneBigramInE (b : Bigram) (r : Region) : Except AllocationFailure (Bigram × Region) :=
  (cloneTokenInE b.1 r).bind fun xr =>
  (cloneTokenInE b.2 xr.2).bind fun yr =>
  Except.ok ((xr.1, yr.1), yr.2)

/-- The fallible update loop: the body of `Chain::update` with every `?`
construction sequenced through the region in source order (topic pair, the
previous-topic clone, the optional `next`, then the key bigram). -/
def updateLoopE (words : List Token) (H : Nat) :
    Nat → Nat → LoopState → Region → Except AllocationFailure (LoopState × Region)
  | 0, _, s, r => .ok (s, r)
  | fuel + 1, i, s, r =>
    let c := counterStep words H i s.counter
    if c.total < 3 ∨ c.items.length < 2 then .ok ({ s with counter := c }, r)
    else
      (fromSliceInE ((c.mostFrequent 1).getD dflt).1 r).bind fun t1r =>
      (fromSliceInE ((c.mostFrequent 2).getD dflt).1 t1r.2).bind fun t2r =>
      (if (t1r.1, t2r.1) ≠ s.prevTopic then
          (cloneBigramInE (t1r.1, t2r.1) t2r.2).bind fun pr =>
            Except.ok ((0 : Int), pr.1, pr.2)
        else Except.ok (s.seqNum, s.prevTopic, t2r.2)).bind fun sqr =>
      (match words.get? (i + 2) with
        | none => Except.ok ((none : Option Token), sqr.2.2)
        | some w => (fromSliceInE w sqr.2.2).bind fun wr => Except.ok (some wr.1, wr.2)).bind
          fun nr =>
      (fromSliceInE (words.getD i "") nr.2).bind fun b1r =>
      (fromSliceInE (words.getD (i + 1) "") b1r.2).bind fun b2r =>
      updateLoopE words H fuel (i + 1)
        ⟨c, sqr.1 + 1, sqr.2.1, chainPush s.chain (b1r.1, b2r.1) (t1r.1, t2r.1) (sqr.1, nr.1)⟩
        b2r.2

/-- Fallible `Chain::update`: the typed `Result` to the caller. -/
def Chain.updateE (ch : Chain) (words : List Token) (r : Region) :
    Except AllocationFailure (Chain × Region) :=
  if words.length < ch.halfParaLen then .ok (ch, r)
  else
    (fromSliceInE "" r).bind fun e1r =>
    (fromSliceInE "" e1r.2).bind fun e2r =>
    (updateLoopE words ch.halfParaLen (words.length - 1) 0
      ⟨Counter.new, 0, (e1r.1, e2r.1), ch.chain⟩ e2r.2).bind fun sr =>
    Except.ok ({ ch with chain := sr.1.chain }, sr.2)

/-- Fallible rebuild of one record vector during `Chain::prune`. -/
def cloneRecordsE : RecordList → Region → Except AllocationFailure (RecordList × Region)
  | [], r => .ok ([], r)
  | (sq, u) :: rest, r =>
    (match u with
      | none => Except.ok ((none : Option Token), r)
      | some t => (cloneTokenInE t r).bind fun tr => Except.ok (some tr.1, tr.2)).bind fun ur =>
    (cloneRecordsE rest ur.2).bind fun rr =>
    Except.ok ((sq, ur.1) :: rr.1, rr.2)

/-- Fallible rebuild of one topic map during `Chain::prune`. -/
def pruneTopicMapE : TopicMap → Region → TopicMap → Except AllocationFailure (TopicMap × Region)
  | [], r, acc => .ok (acc, r)
  | (tp, recs) :: rest, r, acc =>
    (cloneRecordsE recs r).bind fun rr =>
    (cloneBigramInE tp rr.2).bind fun tpr =>
    pruneTopicMapE rest tpr.2 (alInsert acc tpr.1 rr.1)

/-- Fallible walk of the chain during `Chain::prune` (the `if` is the
threshold filter of the source). -/
def pruneChainE (th : Nat) :
    ChainMap → Region → ChainMap → Except AllocationFailure (ChainMap × Region)
  | [], r, acc => .ok (acc, r)
  | (bg, tm) :: rest, r, acc =>
    if th ≤ tm.length then
      (pruneTopicMapE tm r []).bind fun tmr =>
      (cloneBigramInE bg tmr.2).bind fun bgr =>
      pruneChainE th rest bgr.2 (alInsert acc bgr.1 tmr.1)
    else pruneChainE th rest r acc

/-- Fallible `Chain::prune`: the typed `Result` to the caller. -/
def Chain.pruneE (ch : Chain) (r : Region) : Except AllocationFailure (Chain × Region) :=
  (pruneChainE ch.pruneThreshold ch.chain r []).bind fun cr =>
  Except.ok ({ ch with chain := cr.1 }, cr.2)

/-! ### Error propagation lemmas -/

theorem except_bind_ok {α β : Type} (a : α) (f : α → Except AllocationFailure β) :
    (Except.ok a : Except AllocationFailure α).bind f = f a := rfl

theorem except_bind_err {α β : Type} (f : α → Except AllocationFailure β) :
    (Except.error ⟨⟩ : Except AllocationFailure α).bind f = .error ⟨⟩ := rfl

theorem fromSliceInE_fail (s : Token) (r : Region) (hlong : 15 < tokLen s)
    (hcap : r.cap < r.used + padTo16 (tokLen s)) :
    fromSliceInE s r = .error ⟨⟩ := by
  unfold fromSliceInE Region.allocate
  rw [if_pos hlong, if_neg (by omega)]

theorem fromSliceInE_inline (s : Token) (r : Region) (hshort : tokLen s ≤ 15) :
    fromSliceInE s r = .ok (s, r) := by
  unfold fromSliceInE
  rw [if_neg (by omega)]

theorem updateLoopE_fail (words : List Token) (H fuel i : Nat) (s : LoopState) (r : Region)
    (hg : ¬((counterStep words H i s.counter).total < 3 ∨
      (counterStep words H i s.counter).items.length < 2))
    (hlong : 15 < tokLen (((counterStep words H i s.counter).mostFrequent 1).getD dflt).1)
    (hcap : r.cap < r.used +
      padTo16 (tokLen (((counterStep words H i s.counter).mostFrequent 1).getD dflt).1)) :
    updateLoopE words H (fuel + 1) i s r = .error ⟨⟩ := by
  rw [updateLoopE]
  simp only [if_neg hg]
  rw [fromSliceInE_fail _ _ hlong hcap, except_bind_err]

theorem updateE_fail (ch : Chain) (words : List Token) (r : Region)
    (hlen : ¬ words.length < ch.halfParaLen)
    (hloop : updateLoopE words ch.halfParaLen (words.length - 1) 0
      ⟨Counter.new, 0, ("", ""), ch.chain⟩ r = .error ⟨⟩) :
    ch.updateE words r = .error ⟨⟩ := by
  unfold Chain.updateE
  rw [if_neg hlen]
  have hi : ∀ rr : Region, fromSliceInE "" rr = .ok ("", rr) := fun rr =>
    fromSliceInE_inline "" rr (by decide)
  simp only [hi, except_bind_ok]
  rw [hloop, except_bind_err]

theorem pruneE_fail (ch : Chain) (r : Region) (bg tp : Bigram)
    (hch : ch.chain = [(bg, [(tp, [])])]) (hth : ch.pruneThreshold ≤ 1)
    (hlong : 15 < tokLen tp.1) (hcap : r.cap < r.used + padTo16 (tokLen tp.1)) :
    ch.pruneE r = .error ⟨⟩ := by
  unfold Chain.pruneE
  rw [hch, pruneChainE, if_pos (by simpa using hth)]
  have h1 : pruneTopicMapE [(tp, [])] r [] = .error ⟨⟩ := by
    rw [pruneTopicMapE]
    have h0 : cloneRecordsE [] r = .ok (([] : RecordList), r) := rfl
    rw [h0, except_bind_ok]
    have h2 : cloneBigramInE tp r = .error ⟨⟩ := by
      unfold cloneBigramInE cloneTokenInE
      rw [fromSliceInE_fail tp.1 r hlong hcap, except_bind_err]
    rw [h2, except_bind_err]
  rw [h1, except_bind_err, except_bind_err]

/-! ### Remaining glue lemmas for the claims -/

theorem updateLoop_len (words : List Token) (H : Nat) :
    ∀ fuel i s, (updateLoop words H fuel i s).2.length ≤ fuel := by
  intro fuel
  induction fuel with
  | zero =>
    intro i s
    simp [updateLoop]
  | succ fuel ih =>
    intro i s
    by_cases hg : (counterStep words H i s.counter).total < 3 ∨
        (counterStep words H i s.counter).items.length < 2
    · rw [updateLoop_break words H fuel i s hg]
      simp
    · rw [updateLoop_cont words H fuel i s hg]
      have := ih (i + 1) (stepState words i s (counterStep words H i s.counter))
      simp only [List.length_cons]
      omega

theorem get?_eq_getD_of_lt (l : List Token) (i : Nat) (h : i < l.length) :
    l.get? i = some (l.getD i "") := by
  induction l generalizing i with
  | nil => simp at h
  | cons a t ih =>
    cases i with
    | zero => rfl
    | succ j => exact ih j (by simpa using h)

theorem keyIdx_eq_length (l : List (T × Nat)) (k : T) (h : ∀ x ∈ l, x.1 ≠ k) :
    keyIdx l k = l.length := by
  have hle := keyIdx_le l k
  rcases Nat.eq_or_lt_of_le hle with he | hlt
  · exact he
  · have h1 := nth_keyIdx l k hlt
    have h2 := nth_mem l _ hlt
    exact absurd h1 (h _ h2)

theorem alLookup_mem {K V : Type} [DecidableEq K] (m : List (K × V)) (k : K) (v : V)
    (h : alLookup m k = some v) : (k, v) ∈ m := by
  induction m with
  | nil => simp [alLookup] at h
  | cons a rest ih =>
    obtain ⟨k2, v2⟩ := a
    simp only [alLookup] at h
    by_cases h2 : k2 = k
    · rw [if_pos h2] at h
      subst h2
      simp only [Option.some_inj] at h
      subst h
      exact List.mem_cons_self _ _
    · rw [if_neg h2] at h
      exact List.mem_cons_of_mem _ (ih h)

theorem update_short (ch : Chain) (words : List Token) (h : words.length < ch.halfParaLen) :
    ch.update words = (ch, []) := by
  unfold Chain.update
  rw [if_pos h]

theorem update_long (ch : Chain) (words : List Token) (h : ¬ words.length < ch.halfParaLen) :
    ch.update words =
      ({ ch with chain := (updateLoop words ch.halfParaLen (words.length - 1) 0
          ⟨Counter.new, 0, ("", ""), ch.chain⟩).1.chain },
        (updateLoop words ch.halfParaLen (words.length - 1) 0
          ⟨Counter.new, 0, ("", ""), ch.chain⟩).2) := by
  unfold Chain.update
  rw [if_neg h]

/-! ## The claims -/

/-- C5: During update, for every position `i > 0` with `start = max(0, i-H)`
and `end = min(i+H, len)`: if `start > 0` the token `document[start]` is
removed from the frequency counter (provided its length > 2), and the token
`document[end-1]` is added (provided its length > 2) exactly when
`end < len ∨ i + H = len`; at `i = 0` the counter is seeded with every token
of length > 2 in `document[start..end]`.  `counterStep` is the window
maintenance executed by the update loop; `specWindowStep` is the claim's own
wording of it. -/
theorem c5_window_maintenance :
    ∀ (words : List Token) (H i : Nat) (c : Counter Token),
      counterStep words H i c = specWindowStep words H i c :=
  counterStep_eq_spec

/-- C6: for every sequence of add/remove operations (removes only on present
keys) applied to a fresh counter, the item sequence is sorted by count
descending, the counts sum to `total_count()`, and `num_items()` equals the
number of distinct keys with positive count. -/
theorem c6_counter_invariants (ops : List (COp Token))
    (hv : ValidOps Counter.new ops) :
    sortedDesc (applyOps (Counter.new : Counter Token) ops).items ∧
    countSum (applyOps (Counter.new : Counter Token) ops).items =
      (applyOps (Counter.new : Counter Token) ops).totalCount ∧
    (applyOps (Counter.new : Counter Token) ops).numItems =
      (((applyOps (Counter.new : Counter Token) ops).items.filter
        (fun p => decide (0 < p.2))).map (fun p => p.1)).dedup.length := by
  obtain ⟨h1, h2, h3, h4⟩ := Inv_applyOps ops Counter.new Inv_new hv
  refine ⟨h1, h2, ?_⟩
  rw [posCounts_filter _ h3, List.dedup_eq_self.mpr (nodupKeys_map_fst _ h4), List.length_map]
  rfl

/-- The operation sequence of the spec's counter example. -/
def exOps : List (COp Token) :=
  [COp.add "horse", COp.add "brown", COp.add "horse", COp.remove "horse"]

/-- Witness for C6 at the spec's counter example. -/
theorem c6_witness :
    ValidOps (Counter.new : Counter Token) exOps ∧
    (sortedDesc (applyOps (Counter.new : Counter Token) exOps).items ∧
      countSum (applyOps (Counter.new : Counter Token) exOps).items =
        (applyOps (Counter.new : Counter Token) exOps).totalCount ∧
      (applyOps (Counter.new : Counter Token) exOps).numItems =
        (((applyOps (Counter.new : Counter Token) exOps).items.filter
          (fun p => decide (0 < p.2))).map (fun p => p.1)).dedup.length) := by
  have hv : ValidOps (Counter.new : Counter Token) exOps :=
    ⟨trivial, trivial, trivial, ⟨("horse", 2), by decide, rfl⟩, trivial⟩
  exact ⟨hv, c6_counter_invariants exOps hv⟩

/-- C7: `add` on an unseen key appends `(key, 1)` at the tail; `add` on a
present key increments its count and performs the single swap to the slot
immediately right of the first position, scanning leftward, whose count is
≥ the new count (slot 0 when the scan is exhausted); and the spec's concrete
example behaves as stated. -/
theorem c7_add_behaviour :
    (∀ (c : Counter Token) (k : Token), (∀ x ∈ c.items, x.1 ≠ k) →
      c.add k = ⟨c.items ++ [(k, 1)], c.total + 1⟩) ∧
    (∀ (c : Counter Token) (k : Token), (∃ x ∈ c.items, x.1 = k) →
      (c.add k).items =
        listSwap
          (c.items.set (keyIdx c.items k)
            ((nth c.items (keyIdx c.items k)).1, (nth c.items (keyIdx c.items k)).2 + 1))
          (keyIdx c.items k)
          (scanDest
            (c.items.set (keyIdx c.items k)
              ((nth c.items (keyIdx c.items k)).1, (nth c.items (keyIdx c.items k)).2 + 1))
            ((nth c.items (keyIdx c.items k)).2 + 1) (keyIdx c.items k))) ∧
    ((((Counter.new : Counter Token).add "a").add "b").add "a").mostFrequent 1 =
      some ("a", 2) ∧
    ((((Counter.new : Counter Token).add "a").add "b").add "a").mostFrequent 2 =
      some ("b", 1) ∧
    (((((Counter.new : Counter Token).add "a").add "b").add "a").remove "a").totalCount = 2 := by
  refine ⟨?_, ?_, by decide, by decide, by decide⟩
  · intro c k h
    rw [add_def, if_pos (keyIdx_eq_length c.items k h)]
  · intro c k h
    obtain ⟨x, hx, hxk⟩ := h
    exact add_items_eq c k (keyIdx_lt_of_mem c.items k x hx hxk)

/-- Witness for C7: the unseen-key append and the present-key swap at
concrete inputs. -/
theorem c7_witness :
    (Counter.new : Counter Token).add "a" = ⟨[("a", 1)], 1⟩ ∧
    ((⟨[("a", 1)], 1⟩ : Counter Token).add "a").items = [("a", 2)] := by
  constructor
  · exact c7_add_behaviour.1 Counter.new "a" (by decide)
  · have h := c7_add_behaviour.2.1 ⟨[("a", 1)], 1⟩ "a" ⟨("a", 1), by decide, rfl⟩
    exact h.trans (by decide)

/-- C1: every position reached before an early exit appends exactly one
transition record, keyed by `(document[i], document[i+1])`, whose `next` is
`document[i+2]` when `i + 2 < len` and absent when `i = len - 2`: the trace
lists one record per consecutive reached position, and the index gains
exactly one stored record per trace entry. -/
theorem c1_one_record_per_position (ch : Chain) (words : List Token) :
    (ch.update words).2.map TEntry.pos = List.range (ch.update words).2.length ∧
    (ch.update words).2.length ≤ words.length - 1 ∧
    recordCount (ch.update words).1.chain =
      recordCount ch.chain + (ch.update words).2.length ∧
    ∀ e ∈ (ch.update words).2,
      e.pos + 1 < words.length ∧
      e.bigram = (words.getD e.pos "", words.getD (e.pos + 1) "") ∧
      e.next = words.get? (e.pos + 2) ∧
      (e.pos + 2 < words.length → e.next = some (words.getD (e.pos + 2) "")) ∧
      (e.pos = words.length - 2 → e.next = none) := by
  by_cases hshort : words.length < ch.halfParaLen
  · rw [update_short ch words hshort]
    refine ⟨rfl, by simp, by simp, ?_⟩
    intro e he
    simp at he
  · rw [update_long ch words hshort]
    dsimp only
    refine ⟨?_, ?_, ?_, ?_⟩
    · rw [updateLoop_pos, List.range_eq_range']
    · exact updateLoop_len words ch.halfParaLen _ 0 _
    · exact updateLoop_recordCount words ch.halfParaLen _ 0 _
    · intro e he
      obtain ⟨h1, h2, h3, h4⟩ := updateLoop_mem words ch.halfParaLen _ 0 _ e he
      refine ⟨by omega, h3, h4, ?_, ?_⟩
      · intro hlt
        rw [h4]
        exact get?_eq_getD_of_lt words _ hlt
      · intro hpos
        rw [h4]
        exact List.get?_eq_none.mpr (by omega)

/-- The example document (five tokens, all longer than 2 bytes). -/
def exDoc : List Token := ["horse", "quick", "brown", "foxes", "jumps"]

/-- The example index configuration (`half_para_len = 4`). -/
def exChain : Chain := Chain.new 4 1000000 16

/-- Witness for C1 at the example document. -/
theorem c1_witness :
    ((exChain.update exDoc).2.map TEntry.pos = List.range (exChain.update exDoc).2.length ∧
      (exChain.update exDoc).2.length ≤ exDoc.length - 1 ∧
      recordCount (exChain.update exDoc).1.chain =
        recordCount exChain.chain + (exChain.update exDoc).2.length ∧
      ∀ e ∈ (exChain.update exDoc).2,
        e.pos + 1 < exDoc.length ∧
        e.bigram = (exDoc.getD e.pos "", exDoc.getD (e.pos + 1) "") ∧
        e.next = exDoc.get? (e.pos + 2) ∧
        (e.pos + 2 < exDoc.length → e.next = some (exDoc.getD (e.pos + 2) "")) ∧
        (e.pos = exDoc.length - 2 → e.next = none)) ∧
    (exChain.update exDoc).2.length = 4 :=
  ⟨c1_one_record_per_position exChain exDoc, by decide⟩

/-- C2: per-(bigram, topic) record lists only ever grow by appending in
occurrence order (never resorted), the first emitted record of a document has
sequence number 0, and each later record's sequence number is 0 when its
topic differs from the previous position's topic and the previous record's
sequence number plus one otherwise. -/
theorem c2_occurrence_order_and_seq (ch : Chain) (words : List Token) :
    (∀ bg t, lookup2 (ch.update words).1.chain bg t =
      lookup2 ch.chain bg t ++
        ((ch.update words).2.filter
          (fun e => decide (e.bigram = bg ∧ e.topic = t))).map (fun e => (e.seq, e.next))) ∧
    (∀ e, (ch.update words).2.head? = some e → e.seq = 0) ∧
    List.Chain' (fun a b => b.seq = if b.topic = a.topic then a.seq + 1 else 0)
      (ch.update words).2 := by
  by_cases hshort : words.length < ch.halfParaLen
  · rw [update_short ch words hshort]
    refine ⟨?_, ?_, ?_⟩
    · intro bg t
      simp
    · intro e he
      simp at he
    · simp
  · rw [update_long ch words hshort]
    dsimp only
    refine ⟨?_, ?_, ?_⟩
    · intro bg t
      exact updateLoop_lookup words ch.halfParaLen _ 0 _ bg t
    · intro e he
      have hseq := updateLoop_seqOk words ch.halfParaLen (words.length - 1) 0
        ⟨Counter.new, 0, ("", ""), ch.chain⟩
      exact seqOk_head _ ("", "") hseq e he
    · have hseq := updateLoop_seqOk words ch.halfParaLen (words.length - 1) 0
        ⟨Counter.new, 0, ("", ""), ch.chain⟩
      exact seqOk_chain _ ("", "") 0 hseq

/-- Witness for C2 at the example document. -/
theorem c2_witness :
    ((∀ bg t, lookup2 (exChain.update exDoc).1.chain bg t =
        lookup2 exChain.chain bg t ++
          ((exChain.update exDoc).2.filter
            (fun e => decide (e.bigram = bg ∧ e.topic = t))).map (fun e => (e.seq, e.next))) ∧
      (∀ e, (exChain.update exDoc).2.head? = some e → e.seq = 0) ∧
      List.Chain' (fun a b => b.seq = if b.topic = a.topic then a.seq + 1 else 0)
        (exChain.update exDoc).2) ∧
    (exChain.update exDoc).2.map TEntry.seq = [0, 1, 2, 3] :=
  ⟨c2_occurrence_order_and_seq exChain exDoc, by decide⟩

/-- C8: two fresh identically-configured indexes process any document into
identical transition records in identical order (two-run determinism). -/
theorem c8_two_run_determinism (h p th : Nat) (words : List Token) (ch1 ch2 : Chain)
    (h1 : ch1 = Chain.new h p th) (h2 : ch2 = Chain.new h p th) :
    (ch1.update words).2 = (ch2.update words).2 ∧
    ∀ bg t, lookup2 (ch1.update words).1.chain bg t =
      lookup2 (ch2.update words).1.chain bg t := by
  subst h1
  subst h2
  exact ⟨rfl, fun _ _ => rfl⟩

/-- Witness for C8 at the example document and configuration. -/
theorem c8_witness :
    (((Chain.new 4 1000000 16).update exDoc).2 =
      ((Chain.new 4 1000000 16).update exDoc).2 ∧
    ∀ bg t, lookup2 (((Chain.new 4 1000000 16).update exDoc)).1.chain bg t =
      lookup2 (((Chain.new 4 1000000 16).update exDoc)).1.chain bg t) :=
  c8_two_run_determinism 4 1000000 16 exDoc _ _ rfl rfl

/-- C3: after `compact()` (prune) the index contains exactly the entries of
the pre-compaction index whose topic map has at least `prune_threshold`
distinct topic keys, each content-identical (same topics, records, order and
sequence numbers), and every other entry is absent with all its records.
(The well-formedness hypotheses state that the association lists have the
distinct keys a hash map always has.) -/
theorem c3_prune_density_filter (ch : Chain)
    (hnd : (ch.chain.map Prod.fst).Nodup)
    (htm : ∀ p ∈ ch.chain, (p.2.map Prod.fst).Nodup) :
    ∀ bg, alLookup (Chain.prune ch).chain bg =
      match alLookup ch.chain bg with
      | none => none
      | some tm =>
        if ch.pruneThreshold ≤ ((tm.map Prod.fst).dedup).length then some tm else none := by
  intro bg
  rw [prune_lookup ch hnd htm bg]
  cases hm : alLookup ch.chain bg with
  | none => rfl
  | some tm =>
    have hmem := alLookup_mem ch.chain bg tm hm
    have hnd2 : (tm.map Prod.fst).Nodup := htm (bg, tm) hmem
    show (if ch.pruneThreshold ≤ tm.length then some tm else none) =
      (if ch.pruneThreshold ≤ ((tm.map Prod.fst).dedup).length then some tm else none)
    rw [List.dedup_eq_self.mpr hnd2, List.length_map]

/-- A concrete two-entry index: one bigram with one topic, one with none. -/
def exChain3 : Chain :=
  ⟨4, 1000000, 1,
    [(("horse", "quick"), [(("horse", "quick"), [(0, some "brown")])]),
     (("quick", "brown"), [])]⟩

/-- Witness for C3: the dense entry survives unchanged, the empty one is
dropped. -/
theorem c3_witness :
    (alLookup (Chain.prune exChain3).chain ("horse", "quick") =
      match alLookup exChain3.chain ("horse", "quick") with
      | none => none
      | some tm =>
        if exChain3.pruneThreshold ≤ ((tm.map Prod.fst).dedup).length then some tm
        else none) ∧
    (alLookup (Chain.prune exChain3).chain ("quick", "brown") =
      match alLookup exChain3.chain ("quick", "brown") with
      | none => none
      | some tm =>
        if exChain3.pruneThreshold ≤ ((tm.map Prod.fst).dedup).length then some tm
        else none) ∧
    alLookup (Chain.prune exChain3).chain ("quick", "brown") = none :=
  ⟨c3_prune_density_filter exChain3 (by decide) (by decide) ("horse", "quick"),
   c3_prune_density_filter exChain3 (by decide) (by decide) ("quick", "brown"),
   by decide⟩

/-- C4: when the region allocator cannot satisfy a request, constructing a
compact token longer than 15 bytes fails with the explicit typed
`AllocationFailure` (short tokens never touch the allocator), and both
`update` and `compact` (prune) propagate that failure as a typed `Err` to the
caller rather than aborting. -/
theorem c4_allocation_failure_is_typed_and_propagates :
    (∀ (s : Token) (r : Region), 15 < tokLen s → r.cap < r.used + padTo16 (tokLen s) →
      fromSliceInE s r = .error ⟨⟩) ∧
    (∀ (s : Token) (r : Region), tokLen s ≤ 15 → fromSliceInE s r = .ok (s, r)) ∧
    (∀ (words : List Token) (H fuel i : Nat) (s : LoopState) (r : Region),
      ¬((counterStep words H i s.counter).total < 3 ∨
        (counterStep words H i s.counter).items.length < 2) →
      15 < tokLen (((counterStep words H i s.counter).mostFrequent 1).getD dflt).1 →
      r.cap < r.used +
        padTo16 (tokLen (((counterStep words H i s.counter).mostFrequent 1).getD dflt).1) →
      updateLoopE words H (fuel + 1) i s r = .error ⟨⟩) ∧
    (∀ (ch : Chain) (words : List Token) (r : Region),
      ¬ words.length < ch.halfParaLen →
      updateLoopE words ch.halfParaLen (words.length - 1) 0
        ⟨Counter.new, 0, ("", ""), ch.chain⟩ r = .error ⟨⟩ →
      ch.updateE words r = .error ⟨⟩) ∧
    (∀ (ch : Chain) (r : Region) (bg tp : Bigram),
      ch.chain = [(bg, [(tp, [])])] → ch.pruneThreshold ≤ 1 → 15 < tokLen tp.1 →
      r.cap < r.used + padTo16 (tokLen tp.1) →
      ch.pruneE r = .error ⟨⟩) :=
  ⟨fromSliceInE_fail, fromSliceInE_inline, updateLoopE_fail, updateE_fail, pruneE_fail⟩

/-- A 16-byte token (boxed representation, requires allocation). -/
def longTok : Token := "aaaaaaaaaaaaaaaa"

/-- A document whose dominant topic token is the 16-byte token. -/
def exDoc4 : List Token := [longTok, "bbb", longTok, "bbb", longTok]

/-- An index whose only entry's topic key holds the 16-byte token. -/
def exChain5 : Chain := ⟨4, 1000000, 1, [((longTok, "bbb"), [((longTok, "bbb"), [])])]⟩

/-- Witness for C4: with an exhausted region, the long-token construction
fails typed, short tokens succeed without allocating, and both the update
loop, `update`, and prune return the typed error. -/
theorem c4_witness :
    fromSliceInE longTok ⟨0, 0⟩ = .error ⟨⟩ ∧
    fromSliceInE "bbb" ⟨0, 0⟩ = .ok ("bbb", ⟨0, 0⟩) ∧
    updateLoopE exDoc4 4 1 0 ⟨Counter.new, 0, ("", ""), []⟩ ⟨0, 0⟩ = .error ⟨⟩ ∧
    exChain.updateE exDoc4 ⟨0, 0⟩ = .error ⟨⟩ ∧
    exChain5.pruneE ⟨0, 0⟩ = .error ⟨⟩ :=
  ⟨c4_allocation_failure_is_typed_and_propagates.1 longTok ⟨0, 0⟩ (by decide) (by decide),
   c4_allocation_failure_is_typed_and_propagates.2.1 "bbb" ⟨0, 0⟩ (by decide),
   c4_allocation_failure_is_typed_and_propagates.2.2.1 exDoc4 4 0 0
     ⟨Counter.new, 0, ("", ""), []⟩ ⟨0, 0⟩ (by decide) (by decide) (by decide),
   c4_allocation_failure_is_typed_and_propagates.2.2.2.1 exChain exDoc4 ⟨0, 0⟩
     (by decide) (by rfl),
   c4_allocation_failure_is_typed_and_propagates.2.2.2.2 exChain5 ⟨0, 0⟩
     (longTok, "bbb") (longTok, "bbb") rfl (by decide) (by decide) (by decide)⟩

/-- C9: for every string of byte length at most 15 and every string of byte
length 16 to 100, constructing a compact token in a region and reading it
back yields the original bytes. -/
theorem c9_roundtrip (s : List Byte) (p : Pool) :
    (s.length ≤ 15 → (fromSliceIn s p).1.asStr (fromSliceIn s p).2 = s) ∧
    (16 ≤ s.length → s.length ≤ 100 →
      (fromSliceIn s p).1.asStr (fromSliceIn s p).2 = s) := by
  constructor
  · intro h
    unfold fromSliceIn
    rw [if_neg (by unfold INLINE_CAP; omega)]
    exact asStr_inline s p (by unfold INLINE_CAP; omega)
  · intro h1 h2
    unfold fromSliceIn
    rw [if_pos (by unfold INLINE_CAP; omega)]
    exact asStr_boxed s p (by omega)

/-- Witness for C9: a 2-byte and a 20-byte round trip. -/
theorem c9_witness :
    ([104, 105] : List Byte).length ≤ 15 ∧
    (fromSliceIn [104, 105] ⟨[]⟩).1.asStr (fromSliceIn [104, 105] ⟨[]⟩).2 = [104, 105] ∧
    16 ≤ (List.replicate 20 7 : List Byte).length ∧
    (List.replicate 20 7 : List Byte).length ≤ 100 ∧
    (fromSliceIn (List.replicate 20 7) ⟨[]⟩).1.asStr
      (fromSliceIn (List.replicate 20 7) ⟨[]⟩).2 = List.replicate 20 7 :=
  ⟨by decide, (c9_roundtrip [104, 105] ⟨[]⟩).1 (by decide), by decide, by decide,
   (c9_roundtrip (List.replicate 20 7) ⟨[]⟩).2 (by decide) (by decide)⟩

/-- C10 (implicit): the marker has only 7 length bits, so for every string of
byte length ≥ 128 the constructed token reports `len() = len mod 128`,
`as_str()` returns only the first `len mod 128` bytes, and the round trip
fails — representable token lengths are capped at 127 bytes. -/
theorem c10_marker_truncation (s : List Byte) (p : Pool) (h : 128 ≤ s.length) :
    (fromSliceIn s p).1.ulen = s.length % 128 ∧
    (fromSliceIn s p).1.asStr (fromSliceIn s p).2 = s.take (s.length % 128) ∧
    (fromSliceIn s p).1.asStr (fromSliceIn s p).2 ≠ s := by
  unfold fromSliceIn
  rw [if_pos (by unfold INLINE_CAP; omega)]
  obtain ⟨hl, ha⟩ := asStr_boxed_trunc s p
  refine ⟨hl, ha, ?_⟩
  rw [ha]
  intro he
  have hlen := congrArg List.length he
  rw [List.length_take, Nat.min_eq_left (Nat.le_trans (Nat.le_of_lt
    (Nat.mod_lt _ (by omega))) (by omega))] at hlen
  have hm : s.length % 128 < 128 := Nat.mod_lt _ (by omega)
  omega

set_option maxRecDepth 10000 in
/-- Witness for C10 at a 130-byte string. -/
theorem c10_witness :
    (fromSliceIn (List.replicate 130 5) ⟨[]⟩).1.ulen = (List.replicate 130 5).length % 128 ∧
    (fromSliceIn (List.replicate 130 5) ⟨[]⟩).1.asStr
      (fromSliceIn (List.replicate 130 5) ⟨[]⟩).2 =
      (List.replicate 130 5).take ((List.replicate 130 5).length % 128) ∧
    (fromSliceIn (List.replicate 130 5) ⟨[]⟩).1.asStr
      (fromSliceIn (List.replicate 130 5) ⟨[]⟩).2 ≠ List.replicate 130 5 :=
  c10_marker_truncation (List.replicate 130 5) ⟨[]⟩ (by decide)

end Nessie
